import Mathlib

/-!
Verification development for the quarry NBT core
(`quarry/types/nbt.py`, `brigadier/string_reader.py`).

Shallow embedding conventions:
* Bytes are `Nat` values below 256; byte sequences are `List Nat`.
* The external byte-cursor (`quarry.types.buffer.Buffer`) supplies big-endian
  fixed-width reads/writes; we implement those reads/writes directly on
  `List Nat` (they are the primitive the spec assumes).
* The external `mutf8` codec (a pip package, not repository code) is a
  bijection between Python strings and their modified-UTF-8 byte encodings.
  We factor it out: a `TagString` payload is represented by its encoded byte
  sequence, and compound keys are represented the same way.  For the ASCII
  data appearing in all concrete claims, the byte sequence coincides with the
  code-point sequence.
* `TagFloat`/`TagDouble` payloads are represented by their IEEE-754 bit
  patterns (a `Nat` below 2^32 / 2^64): the external `struct` pack/unpack pair
  is a bijection between valid patterns and Python floats, so the wire codec
  is faithfully modelled at the bit level.
* Python exceptions are modelled with `Except PyErr`.
-/

namespace Quarry

/-- Python exception classes reachable in the modelled code. -/
inductive PyErr where
  | syntaxError
  | valueError
  | keyError
  | indexError
  | lookupError
  | nameError
  | attributeError
  | bufferUnderrun
  | fuel
  deriving DecidableEq, Repr

/-- The NBT tag tree (`_Tag` subclasses in `nbt.py`).  Scalar integers carry
their signed value; floats carry IEEE bit patterns; strings carry their
modified-UTF-8 byte payload; arrays carry the unsigned fixed-width values as
stored by the external `PackedArray`; compounds are insertion-ordered
key/value sequences (keys are encoded-string byte payloads). -/
inductive Tag where
  | TagByte (v : Int)
  | TagShort (v : Int)
  | TagInt (v : Int)
  | TagLong (v : Int)
  | TagFloat (bits : Nat)
  | TagDouble (bits : Nat)
  | TagByteArray (vs : List Nat)
  | TagString (s : List Nat)
  | TagList (xs : List Tag)
  | TagCompound (kvs : List (List Nat × Tag))
  | TagIntArray (vs : List Nat)
  | TagLongArray (vs : List Nat)

namespace Tag

/-- Wire discriminant of each variant (the `_ids` registration table). -/
def kindId : Tag → Nat
  | TagByte _ => 1
  | TagShort _ => 2
  | TagInt _ => 3
  | TagLong _ => 4
  | TagFloat _ => 5
  | TagDouble _ => 6
  | TagByteArray _ => 7
  | TagString _ => 8
  | TagList _ => 9
  | TagCompound _ => 10
  | TagIntArray _ => 11
  | TagLongArray _ => 12

end Tag

/-- Big-endian encoding of `n` into `w` bytes (the primitive behind
`Buffer.pack` for unsigned fields; `n` is reduced mod 2^(8w)). -/
def packBE (w : Nat) (n : Nat) : List Nat :=
  match w with
  | 0 => []
  | w' + 1 => (n / 256 ^ w') % 256 :: packBE w' n

/-- Big-endian read of `w` bytes (the primitive behind `Buffer.unpack` for
unsigned fields); fails on a short buffer. -/
def readBE (w : Nat) (bs : List Nat) : Option (Nat × List Nat) :=
  match w, bs with
  | 0, bs => some (0, bs)
  | _ + 1, [] => none
  | w' + 1, b :: bs =>
    match readBE w' bs with
    | some (n, rest) => some (b * 256 ^ w' + n, rest)
    | none => none

/-- Two's-complement image of a signed value in `w` bytes. -/
def toTwos (w : Nat) (v : Int) : Nat := (v % (2 ^ (8 * w) : Nat)).toNat

/-- Signed interpretation of a `w`-byte two's-complement pattern. -/
def fromTwos (w : Nat) (n : Nat) : Int :=
  if n < 2 ^ (8 * w - 1) then (n : Int) else (n : Int) - (2 ^ (8 * w) : Nat)

namespace Tag

mutual

/-- `_Tag.to_bytes` for every variant: the payload encoding (no leading
discriminant, exactly as in the Python methods).  Compounds are encoded as
non-root bodies (triples then a zero terminator). -/
def toBytes : Tag → List Nat
  | TagByte v => packBE 1 (toTwos 1 v)
  | TagShort v => packBE 2 (toTwos 2 v)
  | TagInt v => packBE 4 (toTwos 4 v)
  | TagLong v => packBE 8 (toTwos 8 v)
  | TagFloat bits => packBE 4 bits
  | TagDouble bits => packBE 8 bits
  | TagByteArray vs => packBE 4 vs.length ++ vs.flatMap (packBE 1)
  | TagIntArray vs => packBE 4 vs.length ++ vs.flatMap (packBE 4)
  | TagLongArray vs => packBE 4 vs.length ++ vs.flatMap (packBE 8)
  | TagString s => packBE 2 s.length ++ s
  | TagList xs =>
    packBE 1 ((xs.headD (TagByte 0)).kindId) ++ packBE 4 xs.length ++
      toBytesList xs
  | TagCompound kvs => toBytesEntries kvs ++ [0]

/-- The `b"".join(tag.to_bytes() for tag in self.value)` part of
`TagList.to_bytes`. -/
def toBytesList : List Tag → List Nat
  | [] => []
  | t :: ts => toBytes t ++ toBytesList ts

/-- The per-entry loop of `TagCompound.to_bytes`:
discriminant, encoded name, value payload. -/
def toBytesEntries : List (List Nat × Tag) → List Nat
  | [] => []
  | (k, v) :: rest =>
    packBE 1 v.kindId ++ (packBE 2 k.length ++ k) ++ toBytes v ++
      toBytesEntries rest

end

end Tag

/-- `OrderedDict.__setitem__`: replace in place when the key exists, append
otherwise (used by the compound decode loop `value[name] = tag`). -/
def odInsert (kvs : List (List Nat × Tag)) (k : List Nat) (v : Tag) :
    List (List Nat × Tag) :=
  match kvs with
  | [] => [(k, v)]
  | (k', v') :: rest =>
    if k' = k then (k', v) :: rest else (k', v') :: odInsert rest k v

mutual

/-- `_kinds[kind].from_buff`: decode one payload of the given discriminant
from the byte stream, returning the tag and the unread remainder.  `fuel`
bounds the recursion depth (the Python recursion is bounded by the input
size); every clause mirrors the corresponding `from_buff` method. -/
def fromBuff (fuel : Nat) (kind : Nat) (bs : List Nat) :
    Option (Tag × List Nat) :=
  match fuel with
  | 0 => none
  | fuel + 1 =>
    match kind with
    | 1 => match readBE 1 bs with
      | some (n, rest) => some (.TagByte (fromTwos 1 n), rest)
      | none => none
    | 2 => match readBE 2 bs with
      | some (n, rest) => some (.TagShort (fromTwos 2 n), rest)
      | none => none
    | 3 => match readBE 4 bs with
      | some (n, rest) => some (.TagInt (fromTwos 4 n), rest)
      | none => none
    | 4 => match readBE 8 bs with
      | some (n, rest) => some (.TagLong (fromTwos 8 n), rest)
      | none => none
    | 5 => match readBE 4 bs with
      | some (n, rest) => some (.TagFloat n, rest)
      | none => none
    | 6 => match readBE 8 bs with
      | some (n, rest) => some (.TagDouble n, rest)
      | none => none
    | 7 => match readBE 4 bs with
      | some (n, rest) =>
        match readArray 1 n rest with
        | some (vs, rest') => some (.TagByteArray vs, rest')
        | none => none
      | none => none
    | 11 => match readBE 4 bs with
      | some (n, rest) =>
        match readArray 4 n rest with
        | some (vs, rest') => some (.TagIntArray vs, rest')
        | none => none
      | none => none
    | 12 => match readBE 4 bs with
      | some (n, rest) =>
        match readArray 8 n rest with
        | some (vs, rest') => some (.TagLongArray vs, rest')
        | none => none
      | none => none
    | 8 => match readBE 2 bs with
      | some (n, rest) =>
        if n ≤ rest.length then some (.TagString (rest.take n), rest.drop n)
        else none
      | none => none
    | 9 => match readBE 1 bs with
      | some (k, rest) =>
        match readBE 4 rest with
        | some (n, rest') =>
          match readListElems fuel k n rest' with
          | some (xs, rest'') => some (.TagList xs, rest'')
          | none => none
        | none => none
      | none => none
    | 10 =>
      match readCompoundEntries fuel [] bs with
      | some (kvs, rest) => some (.TagCompound kvs, rest)
      | none => none
    | _ => none

/-- `TagList.from_buff`'s element loop: decode `n` payloads of kind `k`. -/
def readListElems (fuel : Nat) (k : Nat) (n : Nat) (bs : List Nat) :
    Option (List Tag × List Nat) :=
  match n with
  | 0 => some ([], bs)
  | n + 1 =>
    match fromBuff fuel k bs with
    | some (t, rest) =>
      match readListElems fuel k n rest with
      | some (ts, rest') => some (t :: ts, rest')
      | none => none
    | none => none

/-- `TagCompound.from_buff`'s entry loop: read (discriminant, name, value)
triples into an ordered dict until a zero discriminant. -/
def readCompoundEntries (fuel : Nat) (acc : List (List Nat × Tag))
    (bs : List Nat) : Option (List (List Nat × Tag) × List Nat) :=
  match fuel with
  | 0 => none
  | fuel + 1 =>
    match readBE 1 bs with
    | some (kind, rest) =>
      if kind = 0 then some (acc, rest)
      else
        match readBE 2 rest with
        | some (n, rest') =>
          if n ≤ rest'.length then
            let name := rest'.take n
            match fromBuff fuel kind (rest'.drop n) with
            | some (t, rest'') =>
              readCompoundEntries fuel (odInsert acc name t) rest''
            | none => none
          else none
        | none => none
    | none => none

/-- Array payload loop: `n` fixed-width big-endian values (the external
`PackedArray.from_bytes` semantics, per the spec's wire format: a run of
values at a fixed bit width, stored unsigned). -/
def readArray (w : Nat) (n : Nat) (bs : List Nat) :
    Option (List Nat × List Nat) :=
  match n with
  | 0 => some ([], bs)
  | n + 1 =>
    match readBE w bs with
    | some (v, rest) =>
      match readArray w n rest with
      | some (vs, rest') => some (v :: vs, rest')
      | none => none
    | none => none

end

/-- A validity predicate for tag trees: scalar values within their declared
bit widths, byte payloads genuine bytes, lengths within the wire format's
length-prefix ranges, lists homogeneous, compound keys distinct (a Python
dict cannot hold duplicate keys). -/
def validKey (k : List Nat) : Bool :=
  k.length < 2 ^ 16 && k.all (· < 256)

mutual

def Tag.valid : Tag → Bool
  | .TagByte v => -128 ≤ v && v < 128
  | .TagShort v => -(2 ^ 15) ≤ v && v < 2 ^ 15
  | .TagInt v => -(2 ^ 31) ≤ v && v < 2 ^ 31
  | .TagLong v => -(2 ^ 63) ≤ v && v < 2 ^ 63
  | .TagFloat bits => bits < 2 ^ 32
  | .TagDouble bits => bits < 2 ^ 64
  | .TagByteArray vs => vs.length < 2 ^ 31 && vs.all (· < 2 ^ 8)
  | .TagIntArray vs => vs.length < 2 ^ 31 && vs.all (· < 2 ^ 32)
  | .TagLongArray vs => vs.length < 2 ^ 31 && vs.all (· < 2 ^ 64)
  | .TagString s => validKey s
  | .TagList xs =>
    xs.length < 2 ^ 31 &&
      (xs.map Tag.kindId).all (· = (xs.headD (.TagByte 0)).kindId) &&
      Tag.validList xs
  | .TagCompound kvs =>
    decide ((kvs.map Prod.fst).Nodup) && (kvs.map Prod.fst).all validKey &&
      Tag.validValues kvs

def Tag.validList : List Tag → Bool
  | [] => true
  | t :: ts => t.valid && Tag.validList ts

def Tag.validValues : List (List Nat × Tag) → Bool
  | [] => true
  | (_, v) :: rest => v.valid && Tag.validValues rest

end

mutual

/-- Fuel sufficient to decode `t`'s own encoding (one unit per `fromBuff`
call plus one per compound-entry loop step). -/
def Tag.fuelNeeded : Tag → Nat
  | .TagList xs => 1 + Tag.fuelList xs
  | .TagCompound kvs => 2 + kvs.length + Tag.fuelValues kvs
  | _ => 1

def Tag.fuelList : List Tag → Nat
  | [] => 0
  | t :: ts => max t.fuelNeeded (Tag.fuelList ts)

def Tag.fuelValues : List (List Nat × Tag) → Nat
  | [] => 0
  | (_, v) :: rest => max v.fuelNeeded (Tag.fuelValues rest)

end

/-- `cls.from_bytes` specialised by discriminant: decode a payload of kind
`k`, with fuel derived from the input length (the Python recursion depth is
bounded by the number of bytes). -/
def Tag.fromBytesAs (k : Nat) (bs : List Nat) : Option (Tag × List Nat) :=
  fromBuff (bs.length + 1) k bs

/-- `_Tag.deep_copy`: `type(self).from_bytes(self.to_bytes())`. -/
def Tag.deep_copy (t : Tag) : Option Tag :=
  (Tag.fromBytesAs t.kindId t.toBytes).map Prod.fst

-- Round-trip lemmas ----------------------------------------------------------

theorem packBE_length (w n : Nat) : (packBE w n).length = w := by
  induction w generalizing n with
  | zero => rfl
  | succ w ih => simp [packBE, ih]

theorem readBE_packBE (w n : Nat) (r : List Nat) :
    readBE w (packBE w n ++ r) = some (n % 256 ^ w, r) := by
  induction w generalizing n with
  | zero => simp [packBE, readBE, Nat.mod_one]
  | succ w ih =>
    simp only [packBE, List.cons_append, readBE, List.append_eq, ih]
    rw [pow_succ, Nat.mod_mul]
    congr 2
    ring

theorem readBE_packBE_of_lt {w n : Nat} (r : List Nat) (h : n < 256 ^ w) :
    readBE w (packBE w n ++ r) = some (n, r) := by
  rw [readBE_packBE, Nat.mod_eq_of_lt h]

theorem toTwos_lt (w : Nat) (v : Int) : toTwos w v < 256 ^ w := by
  have hp : (256 : Nat) ^ w = 2 ^ (8 * w) := by
    rw [show (256 : Nat) = 2 ^ 8 from rfl, ← pow_mul]
  have hpos : (0 : Int) < ((2 ^ (8 * w) : Nat) : Int) := by positivity
  have h1 := Int.emod_lt_of_pos v hpos
  have h2 := Int.emod_nonneg v (ne_of_gt hpos)
  unfold toTwos
  omega

theorem fromTwos_toTwos (w : Nat) (hw : 1 ≤ w) (v : Int)
    (h1 : -((2 : Int) ^ (8 * w - 1)) ≤ v) (h2 : v < (2 : Int) ^ (8 * w - 1)) :
    fromTwos w (toTwos w v) = v := by
  have hsplit : (2 : Int) ^ (8 * w - 1) * 2 = (2 : Int) ^ (8 * w) := by
    rw [← pow_succ]
    congr 1
    omega
  have hM : ((2 ^ (8 * w) : Nat) : Int) = (2 : Int) ^ (8 * w) := by push_cast; rfl
  have hH : ((2 ^ (8 * w - 1) : Nat) : Int) = (2 : Int) ^ (8 * w - 1) := by
    push_cast; rfl
  have hHpos : (0 : Int) < (2 : Int) ^ (8 * w - 1) := by positivity
  unfold fromTwos toTwos
  rcases le_or_lt 0 v with hv | hv
  · have hlt : v < ((2 ^ (8 * w) : Nat) : Int) := by rw [hM]; omega
    rw [Int.emod_eq_of_lt hv hlt]
    have : v.toNat < 2 ^ (8 * w - 1) := by omega
    simp only [this, if_true]
    omega
  · have hml : (0 : Int) ≤ v + (2 : Int) ^ (8 * w) := by omega
    have hmr : v + (2 : Int) ^ (8 * w) < (2 : Int) ^ (8 * w) := by omega
    have hmod : v % ((2 ^ (8 * w) : Nat) : Int) = v + (2 : Int) ^ (8 * w) := by
      rw [hM]
      rw [show v % (2 : Int) ^ (8 * w) =
          (v + (2 : Int) ^ (8 * w) * 1) % (2 : Int) ^ (8 * w) by
        rw [Int.add_mul_emod_self_left], mul_one]
      exact Int.emod_eq_of_lt hml hmr
    rw [hmod]
    have hge : ¬ (v + (2 : Int) ^ (8 * w)).toNat < 2 ^ (8 * w - 1) := by omega
    simp only [hge, if_false]
    omega

theorem readArray_flatMap (w : Nat) (vs : List Nat) (r : List Nat)
    (h : ∀ v ∈ vs, v < 256 ^ w) :
    readArray w vs.length (vs.flatMap (packBE w) ++ r) = some (vs, r) := by
  induction vs with
  | nil => simp [readArray]
  | cons v vs ih =>
    simp only [List.flatMap_cons, List.length_cons, List.append_assoc,
      readArray, readBE_packBE_of_lt _ (h v (by simp)),
      ih (fun x hx => h x (by simp [hx]))]

theorem kindId_lt (t : Tag) : t.kindId < 256 := by
  cases t <;> simp [Tag.kindId]

theorem kindId_pos (t : Tag) : 0 < t.kindId := by
  cases t <;> simp [Tag.kindId]

theorem one_le_fuelNeeded (t : Tag) : 1 ≤ t.fuelNeeded := by
  cases t <;> simp only [Tag.fuelNeeded] <;> omega

theorem odInsert_fresh (acc : List (List Nat × Tag)) (k : List Nat) (v : Tag)
    (h : k ∉ acc.map Prod.fst) : odInsert acc k v = acc ++ [(k, v)] := by
  induction acc with
  | nil => rfl
  | cons kv rest ih =>
    obtain ⟨k', v'⟩ := kv
    simp only [List.map_cons, List.mem_cons] at h
    push_neg at h
    simp only [odInsert]
    rw [if_neg (fun hh => h.1 hh.symm)]
    simp [ih h.2]

mutual

theorem fromBuff_toBytes (t : Tag) (fuel : Nat) (r : List Nat)
    (hv : t.valid = true) (hf : t.fuelNeeded ≤ fuel) :
    fromBuff fuel t.kindId (t.toBytes ++ r) = some (t, r) := by
  cases fuel with
  | zero => exact absurd hf (by have := one_le_fuelNeeded t; omega)
  | succ fuel =>
    cases t with
    | TagByte v =>
      simp only [Tag.valid, Bool.and_eq_true, decide_eq_true_eq] at hv
      have hb : fromTwos 1 (toTwos 1 v) = v :=
        fromTwos_toTwos 1 (by norm_num) v (by norm_num; omega)
          (by norm_num; omega)
      simp [Tag.kindId, Tag.toBytes, fromBuff,
        readBE_packBE_of_lt _ (toTwos_lt 1 v), hb]
    | TagShort v =>
      simp only [Tag.valid, Bool.and_eq_true, decide_eq_true_eq] at hv
      have hb : fromTwos 2 (toTwos 2 v) = v :=
        fromTwos_toTwos 2 (by norm_num) v (by norm_num; omega)
          (by norm_num; omega)
      simp [Tag.kindId, Tag.toBytes, fromBuff,
        readBE_packBE_of_lt _ (toTwos_lt 2 v), hb]
    | TagInt v =>
      simp only [Tag.valid, Bool.and_eq_true, decide_eq_true_eq] at hv
      have hb : fromTwos 4 (toTwos 4 v) = v :=
        fromTwos_toTwos 4 (by norm_num) v (by norm_num; omega)
          (by norm_num; omega)
      simp [Tag.kindId, Tag.toBytes, fromBuff,
        readBE_packBE_of_lt _ (toTwos_lt 4 v), hb]
    | TagLong v =>
      simp only [Tag.valid, Bool.and_eq_true, decide_eq_true_eq] at hv
      have hb : fromTwos 8 (toTwos 8 v) = v :=
        fromTwos_toTwos 8 (by norm_num) v (by norm_num; omega)
          (by norm_num; omega)
      simp [Tag.kindId, Tag.toBytes, fromBuff,
        readBE_packBE_of_lt _ (toTwos_lt 8 v), hb]
    | TagFloat bits =>
      simp only [Tag.valid, decide_eq_true_eq] at hv
      simp [Tag.kindId, Tag.toBytes, fromBuff,
        readBE_packBE_of_lt _ (show bits < 256 ^ 4 by norm_num; omega)]
    | TagDouble bits =>
      simp only [Tag.valid, decide_eq_true_eq] at hv
      simp [Tag.kindId, Tag.toBytes, fromBuff,
        readBE_packBE_of_lt _ (show bits < 256 ^ 8 by norm_num; omega)]
    | TagByteArray vs =>
      simp only [Tag.valid, Bool.and_eq_true, decide_eq_true_eq,
        List.all_eq_true] at hv
      simp [Tag.kindId, Tag.toBytes, fromBuff, List.append_assoc,
        readBE_packBE_of_lt _ (show vs.length < 256 ^ 4 by norm_num; omega),
        readArray_flatMap 1 vs _
          (fun v hm => by have := hv.2 v hm; norm_num at this ⊢; omega)]
    | TagIntArray vs =>
      simp only [Tag.valid, Bool.and_eq_true, decide_eq_true_eq,
        List.all_eq_true] at hv
      simp [Tag.kindId, Tag.toBytes, fromBuff, List.append_assoc,
        readBE_packBE_of_lt _ (show vs.length < 256 ^ 4 by norm_num; omega),
        readArray_flatMap 4 vs _
          (fun v hm => by have := hv.2 v hm; norm_num at this ⊢; omega)]
    | TagLongArray vs =>
      simp only [Tag.valid, Bool.and_eq_true, decide_eq_true_eq,
        List.all_eq_true] at hv
      simp [Tag.kindId, Tag.toBytes, fromBuff, List.append_assoc,
        readBE_packBE_of_lt _ (show vs.length < 256 ^ 4 by norm_num; omega),
        readArray_flatMap 8 vs _
          (fun v hm => by have := hv.2 v hm; norm_num at this ⊢; omega)]
    | TagString s =>
      simp only [Tag.valid, validKey, Bool.and_eq_true, decide_eq_true_eq,
        List.all_eq_true] at hv
      simp only [Tag.kindId, Tag.toBytes, fromBuff, List.append_assoc,
        readBE_packBE_of_lt _ (show s.length < 256 ^ 2 by norm_num; omega)]
      rw [if_pos (by simp)]
      simp [List.take_left, List.drop_left]
    | TagList xs =>
      simp only [Tag.valid, Bool.and_eq_true, decide_eq_true_eq,
        List.all_eq_true, List.mem_map] at hv
      have hfl : Tag.fuelList xs ≤ fuel := by
        have h2 : (Tag.TagList xs).fuelNeeded = 1 + Tag.fuelList xs := rfl
        omega
      have hks : ∀ x ∈ xs, x.kindId = (xs.headD (.TagByte 0)).kindId := by
        intro x hx
        exact hv.1.2 _ ⟨x, hx, rfl⟩
      have hKlt : (xs.headD (.TagByte 0)).kindId < 256 ^ 1 := by
        rw [pow_one]; exact kindId_lt _
      have hlist := readListElems_toBytesList xs _ fuel r hks hv.2 hfl
      show fromBuff (fuel + 1) 9 ((Tag.TagList xs).toBytes ++ r) = _
      simp only [Tag.toBytes, fromBuff, List.append_assoc,
        readBE_packBE_of_lt _ hKlt,
        readBE_packBE_of_lt _ (show xs.length < 256 ^ 4 by norm_num; omega),
        hlist]
    | TagCompound kvs =>
      simp only [Tag.valid, Bool.and_eq_true, decide_eq_true_eq,
        List.all_eq_true, List.mem_map] at hv
      have hfl : kvs.length + Tag.fuelValues kvs + 1 ≤ fuel := by
        have h2 : (Tag.TagCompound kvs).fuelNeeded =
            2 + kvs.length + Tag.fuelValues kvs := rfl
        omega
      have hkeys : ∀ kv ∈ kvs, validKey kv.1 = true := by
        intro kv hkv
        exact hv.1.2 _ ⟨kv, hkv, rfl⟩
      have hmain := readCompoundEntries_toBytesEntries kvs fuel [] r
        (by simpa using hv.1.1) hkeys hv.2 (by omega)
      simp only [Tag.kindId, Tag.toBytes, fromBuff, List.append_assoc,
        List.singleton_append] at hmain ⊢
      simp [hmain]

theorem readListElems_toBytesList (xs : List Tag) (k : Nat) (fuel : Nat)
    (r : List Nat) (hk : ∀ x ∈ xs, x.kindId = k)
    (hv : Tag.validList xs = true) (hf : Tag.fuelList xs ≤ fuel) :
    readListElems fuel k xs.length (Tag.toBytesList xs ++ r) = some (xs, r) := by
  cases xs with
  | nil => simp [readListElems, Tag.toBytesList]
  | cons x xs =>
    simp only [Tag.validList, Bool.and_eq_true] at hv
    simp only [Tag.fuelList] at hf
    have hx := fromBuff_toBytes x fuel (Tag.toBytesList xs ++ r) hv.1
      (by omega)
    rw [hk x (by simp)] at hx
    simp only [Tag.toBytesList, List.length_cons, readListElems,
      List.append_assoc, hx,
      readListElems_toBytesList xs k fuel r (fun y hy => hk y (by simp [hy]))
        hv.2 (by omega)]

theorem readCompoundEntries_toBytesEntries (kvs : List (List Nat × Tag))
    (fuel : Nat) (acc : List (List Nat × Tag)) (r : List Nat)
    (hnodup : ((acc ++ kvs).map Prod.fst).Nodup)
    (hkeys : ∀ kv ∈ kvs, validKey kv.1 = true)
    (hv : Tag.validValues kvs = true)
    (hf : kvs.length + Tag.fuelValues kvs + 1 ≤ fuel) :
    readCompoundEntries fuel acc (Tag.toBytesEntries kvs ++ (0 :: r)) =
      some (acc ++ kvs, r) := by
  cases fuel with
  | zero => omega
  | succ fuel =>
    cases kvs with
    | nil =>
      simp only [Tag.toBytesEntries, List.nil_append, readCompoundEntries]
      simp [readBE, packBE]
    | cons kv rest =>
      obtain ⟨k, v⟩ := kv
      simp only [Tag.validValues, Bool.and_eq_true] at hv
      simp only [List.length_cons, Tag.fuelValues] at hf
      have hkey := hkeys (k, v) (by simp)
      simp only [validKey, Bool.and_eq_true, decide_eq_true_eq,
        List.all_eq_true] at hkey
      have hknotin : k ∉ acc.map Prod.fst := by
        simp only [List.map_append, List.map_cons] at hnodup
        have := (List.nodup_append).mp hnodup
        intro hmem
        exact this.2.2 hmem (by simp)
      have hx := fromBuff_toBytes v fuel
        (Tag.toBytesEntries rest ++ (0 :: r)) hv.1 (by omega)
      have hrec := readCompoundEntries_toBytesEntries rest fuel
        (acc ++ [(k, v)]) r
        (by simpa [List.append_assoc] using hnodup)
        (fun kv hkv => hkeys kv (by simp [hkv])) hv.2 (by omega)
      simp only [Tag.toBytesEntries, List.append_assoc, readCompoundEntries,
        List.cons_append]
      rw [readBE_packBE_of_lt _ (show v.kindId < 256 ^ 1 by
        simpa using kindId_lt v)]
      simp only [List.nil_append]
      rw [if_neg (by have := kindId_pos v; omega)]
      rw [readBE_packBE_of_lt _ (show k.length < 256 ^ 2 by norm_num; omega)]
      simp only []
      rw [if_pos (by simp)]
      simp only [List.take_left, List.drop_left, hx]
      rw [odInsert_fresh acc k v hknotin]
      simpa [List.append_assoc] using hrec

end

mutual

theorem fuelNeeded_le (t : Tag) : t.fuelNeeded ≤ t.toBytes.length + 1 := by
  cases t with
  | TagList xs =>
    have h1 : (Tag.TagList xs).fuelNeeded = 1 + Tag.fuelList xs := rfl
    have h2 := fuelList_le xs
    simp only [h1, Tag.toBytes, List.length_append, packBE_length]
    omega
  | TagCompound kvs =>
    have h1 : (Tag.TagCompound kvs).fuelNeeded =
      2 + kvs.length + Tag.fuelValues kvs := rfl
    have h2 := fuelValues_le kvs
    simp only [h1, Tag.toBytes, List.length_append, List.length_cons,
      List.length_nil]
    omega
  | TagByte v => simp [Tag.fuelNeeded, Tag.toBytes]
  | TagShort v => simp [Tag.fuelNeeded, Tag.toBytes]
  | TagInt v => simp [Tag.fuelNeeded, Tag.toBytes]
  | TagLong v => simp [Tag.fuelNeeded, Tag.toBytes]
  | TagFloat b => simp [Tag.fuelNeeded, Tag.toBytes]
  | TagDouble b => simp [Tag.fuelNeeded, Tag.toBytes]
  | TagByteArray vs => simp [Tag.fuelNeeded, Tag.toBytes]
  | TagIntArray vs => simp [Tag.fuelNeeded, Tag.toBytes]
  | TagLongArray vs => simp [Tag.fuelNeeded, Tag.toBytes]
  | TagString s => simp [Tag.fuelNeeded, Tag.toBytes]

theorem fuelList_le (xs : List Tag) :
    Tag.fuelList xs ≤ (Tag.toBytesList xs).length + 1 := by
  cases xs with
  | nil => simp [Tag.fuelList, Tag.toBytesList]
  | cons t ts =>
    have h1 := fuelNeeded_le t
    have h2 := fuelList_le ts
    simp only [Tag.fuelList, Tag.toBytesList, List.length_append]
    omega

theorem fuelValues_le (kvs : List (List Nat × Tag)) :
    kvs.length + Tag.fuelValues kvs ≤ (Tag.toBytesEntries kvs).length := by
  cases kvs with
  | nil => simp [Tag.fuelValues, Tag.toBytesEntries]
  | cons kv rest =>
    obtain ⟨k, v⟩ := kv
    have h1 := fuelNeeded_le v
    have h2 := fuelValues_le rest
    simp only [Tag.fuelValues, Tag.toBytesEntries, List.length_append,
      List.length_cons, packBE_length]
    omega

end

/-- Instantiation of the round-trip at the fuel supplied by
`Tag.fromBytesAs` (input length plus one). -/
theorem fromBytesAs_toBytes (t : Tag) (h : t.valid = true) :
    Tag.fromBytesAs t.kindId t.toBytes = some (t, []) := by
  unfold Tag.fromBytesAs
  have hm := fromBuff_toBytes t (t.toBytes.length + 1) [] h
    (by have := fuelNeeded_le t; omega)
  simpa using hm

-- Logical value, Python equality, `equals_exact` ------------------------------

/-- The Python object returned by `_Tag.to_obj`: ints, floats
(represented by bit width and pattern), strings, lists and dicts. -/
inductive PyObj where
  | int (i : Int)
  | floatBits (w : Nat) (bits : Nat)
  | str (s : List Nat)
  | list (xs : List PyObj)
  | dict (kvs : List (List Nat × PyObj))

mutual

/-- `_Tag.to_obj` / `TagList.to_obj` / `TagCompound.to_obj` /
`_ArrayTag.to_obj`: the variant-erased logical value. -/
def Tag.toObj : Tag → PyObj
  | .TagByte v => .int v
  | .TagShort v => .int v
  | .TagInt v => .int v
  | .TagLong v => .int v
  | .TagFloat bits => .floatBits 32 bits
  | .TagDouble bits => .floatBits 64 bits
  | .TagByteArray vs => .list (vs.map fun n => .int (n : Int))
  | .TagIntArray vs => .list (vs.map fun n => .int (n : Int))
  | .TagLongArray vs => .list (vs.map fun n => .int (n : Int))
  | .TagString s => .str s
  | .TagList xs => .list (Tag.toObjList xs)
  | .TagCompound kvs => .dict (Tag.toObjEntries kvs)

def Tag.toObjList : List Tag → List PyObj
  | [] => []
  | t :: ts => t.toObj :: Tag.toObjList ts

def Tag.toObjEntries : List (List Nat × Tag) → List (List Nat × PyObj)
  | [] => []
  | (k, v) :: rest => (k, v.toObj) :: Tag.toObjEntries rest

end

/-- First value stored under key `k` (Python dict lookup). -/
def lookupPy (kvs : List (List Nat × PyObj)) (k : List Nat) : Option PyObj :=
  (kvs.find? fun kv => kv.1 = k).map (·.2)

mutual

/-- Python `==` on `to_obj` results, with `fuel` as a termination budget
(the dict case compares via key lookup, which is not structurally
decreasing).  Numeric cross-type equality between ints and floats is
approximated as `false` (no claim in this development compares an integer
tag with a float tag), and float payloads are compared bit-for-bit. -/
def pyEqF (fuel : Nat) (x y : PyObj) : Bool :=
  match fuel with
  | 0 => false
  | fuel + 1 =>
    match x, y with
    | .int i, .int j => i == j
    | .floatBits w b, .floatBits w' b' => w == w' && b == b'
    | .str s, .str t => s == t
    | .list xs, .list ys => pyEqListF fuel xs ys
    | .dict d, .dict e => pyEqDictLeF fuel d e && pyEqDictLeF fuel e d
    | _, _ => false

def pyEqListF (fuel : Nat) (xs ys : List PyObj) : Bool :=
  match fuel with
  | 0 => false
  | fuel + 1 =>
    match xs, ys with
    | [], [] => true
    | x :: xs, y :: ys => pyEqF fuel x y && pyEqListF fuel xs ys
    | _, _ => false

/-- One direction of Python dict equality: every entry of the first dict is
present (by key) in the second with an equal value. -/
def pyEqDictLeF (fuel : Nat) (d e : List (List Nat × PyObj)) : Bool :=
  match fuel with
  | 0 => false
  | fuel + 1 =>
    match d with
    | [] => true
    | (k, v) :: rest =>
      (match lookupPy e k with
       | some w => pyEqF fuel v w
       | none => false) && pyEqDictLeF fuel rest e

end

mutual

/-- Size budget that suffices for `pyEqF` on a pair of objects. -/
def PyObj.depth : PyObj → Nat
  | .list xs => 1 + PyObj.depthList xs
  | .dict kvs => 1 + PyObj.depthEntries kvs
  | _ => 1

def PyObj.depthList : List PyObj → Nat
  | [] => 0
  | x :: xs => 1 + x.depth + PyObj.depthList xs

def PyObj.depthEntries : List (List Nat × PyObj) → Nat
  | [] => 0
  | (_, v) :: rest => 1 + v.depth + PyObj.depthEntries rest

end

/-- Python `==` between two objects (fuel instantiated generously). -/
def pyEq (x y : PyObj) : Bool := pyEqF (x.depth + y.depth) x y

/-- `_Tag.__eq__`: `self.to_obj() == other.to_obj()`. -/
def Tag.tagEq (a b : Tag) : Bool := pyEq a.toObj b.toObj

/-- `_Tag.equals_exact`: `self.to_bytes() == other.to_bytes()`. -/
def Tag.equals_exact (a b : Tag) : Bool := a.toBytes == b.toBytes

-- `is_subset` -----------------------------------------------------------------

/-- `self.value == other.value` as used by `_Tag.is_subset` for scalar and
string tags (the base class does not compare variants).  Integer payloads
compare numerically across the four integer widths; float payloads compare
bit-for-bit within the same width (the int/float and float32/float64
cross-comparisons that Python would resolve by IEEE value are approximated
as `false`; no claim exercises them). -/
def rawValueEq : Tag → Tag → Bool
  | .TagByte v, o | .TagShort v, o | .TagInt v, o | .TagLong v, o =>
    (match o with
     | .TagByte w | .TagShort w | .TagInt w | .TagLong w => v == w
     | _ => false)
  | .TagFloat b, .TagFloat b' => b == b'
  | .TagDouble b, .TagDouble b' => b == b'
  | .TagString s, .TagString t => s == t
  | _, _ => false

/-- First tag stored under key `k` in a compound payload. -/
def lookupTag (kvs : List (List Nat × Tag)) (k : List Nat) : Option Tag :=
  (kvs.find? fun kv => kv.1 = k).map (·.2)

/-- `is_subset`: `_Tag.is_subset` (value equality) for scalars/strings,
`_ArrayTag.is_subset` (same variant, same length, elementwise equality),
`TagList.is_subset` (every element subset-matches some element of the
other list), `TagCompound.is_subset` (every key present in the other
compound with a subset-matching value). -/
def Tag.is_subset : Tag → Tag → Bool
  | .TagByteArray vs, o =>
    (match o with
     | .TagByteArray ws => vs == ws
     | _ => false)
  | .TagIntArray vs, o =>
    (match o with
     | .TagIntArray ws => vs == ws
     | _ => false)
  | .TagLongArray vs, o =>
    (match o with
     | .TagLongArray ws => vs == ws
     | _ => false)
  | .TagList xs, o =>
    (match o with
     | .TagList ys => xs.attach.all fun x => ys.any fun y => x.1.is_subset y
     | _ => false)
  | .TagCompound kvs, o =>
    (match o with
     | .TagCompound e =>
       kvs.attach.all fun kv =>
         (match lookupTag e kv.1.1 with
          | some w => kv.1.2.is_subset w
          | none => false)
     | _ => false)
  | s, o => rawValueEq s o
termination_by t _ => sizeOf t
decreasing_by
  · have h := List.sizeOf_lt_of_mem x.2
    simp only [Tag.TagList.sizeOf_spec]
    omega
  · have h := List.sizeOf_lt_of_mem kv.2
    have h2 : sizeOf kv.1.2 < sizeOf kv.1 := by
      obtain ⟨⟨a, b⟩, hm⟩ := kv
      simp only [Prod.mk.sizeOf_spec]
      omega
    simp only [Tag.TagCompound.sizeOf_spec]
    omega

-- `TagCompound.update` ---------------------------------------------------------

/-- Python truthiness of a tag: `TagList` and the three array classes define
`__len__`, so they are falsy exactly when empty; every other tag class falls
back to default object truthiness (always true). -/
def Tag.truthy : Tag → Bool
  | .TagList xs => !xs.isEmpty
  | .TagByteArray vs => !vs.isEmpty
  | .TagIntArray vs => !vs.isEmpty
  | .TagLongArray vs => !vs.isEmpty
  | _ => true

/-- `del self.value[name]` on an ordered dict. -/
def odErase (kvs : List (List Nat × Tag)) (k : List Nat) :
    List (List Nat × Tag) :=
  match kvs with
  | [] => []
  | (k', v') :: rest =>
    if k' = k then rest else (k', v') :: odErase rest k

mutual

/-- Nesting weight of a tag for the `update` recursion: one unit per
compound entry plus the weight of each value. -/
def Tag.updWeight : Tag → Nat
  | .TagCompound kvs => 1 + Tag.updWeightEntries kvs
  | _ => 1

def Tag.updWeightEntries : List (List Nat × Tag) → Nat
  | [] => 0
  | (_, v) :: rest => 1 + v.updWeight + Tag.updWeightEntries rest

end

/-- `TagCompound.update` on the underlying ordered dicts: iterate the
incoming entries; delete when the old value is present and truthy and the
new value is falsy; merge recursively when both are compounds; otherwise
assign (replacing in place, or appending for a fresh key).  `fuel` bounds
the recursive-merge nesting depth; `updateTags` instantiates it with a
sufficient weight and `updateTagsF_irrel` shows the choice is
irrelevant.  `updateStep` is the loop body on one incoming entry, with the
recursive merge abstracted. -/
def oldTruthy : Option Tag → Bool
  | some o => o.truthy
  | none => false

/-- `isinstance(t, TagCompound)` refined to the payload. -/
def asCompound : Tag → Option (List (List Nat × Tag))
  | .TagCompound kvs => some kvs
  | _ => none

/-- The elif/else of the loop body: recursive merge when both the existing
and the incoming value are compounds, plain assignment otherwise. -/
def mergeOrAssign (recur : List (List Nat × Tag) → List (List Nat × Tag) →
    List (List Nat × Tag)) (self : List (List Nat × Tag)) (name : List Nat)
    (newTag : Tag) : Option (List (List Nat × Tag)) →
    Option (List (List Nat × Tag)) → List (List Nat × Tag)
  | some okvs, some nkvs => odInsert self name (.TagCompound (recur okvs nkvs))
  | _, _ => odInsert self name newTag

def updateStep (recur : List (List Nat × Tag) → List (List Nat × Tag) →
    List (List Nat × Tag)) (self : List (List Nat × Tag)) (name : List Nat)
    (newTag : Tag) : List (List Nat × Tag) :=
  if oldTruthy (lookupTag self name) && !newTag.truthy then
    odErase self name
  else
    mergeOrAssign recur self name newTag
      ((lookupTag self name).bind asCompound) (asCompound newTag)

def updateTagsF : Nat → List (List Nat × Tag) → List (List Nat × Tag) →
    List (List Nat × Tag)
  | 0, self, _ => self
  | fuel + 1, self, other =>
    match other with
    | [] => self
    | (name, newTag) :: rest =>
      updateTagsF fuel (updateStep (updateTagsF fuel) self name newTag) rest

def updateTags (self other : List (List Nat × Tag)) :
    List (List Nat × Tag) :=
  updateTagsF (Tag.updWeightEntries other + 1) self other

-- StringReader (brigadier/string_reader.py) -----------------------------------

/-- Named characters, to keep quote/backslash/brace handling explicit. -/
def lbrace : Char := Char.ofNat 123

def rbrace : Char := Char.ofNat 125

def squote : Char := Char.ofNat 39

def dquote : Char := Char.ofNat 34

def backslash : Char := Char.ofNat 92

def newlineChar : Char := Char.ofNat 10

/-- Python `str.isspace` restricted to the ASCII whitespace characters. -/
def pyIsSpace (c : Char) : Bool :=
  c == ' ' || c == Char.ofNat 9 || c == Char.ofNat 10 ||
    c == Char.ofNat 11 || c == Char.ofNat 12 || c == Char.ofNat 13

/-- `StringReader`: a cursor over a string. -/
structure StringReader where
  string : List Char
  cursor : Nat

def mkReader (s : List Char) : StringReader := ⟨s, 0⟩

namespace StringReader

def canReadN (r : StringReader) (n : Nat) : Bool :=
  r.cursor + n ≤ r.string.length

def canRead (r : StringReader) : Bool := canReadN r 1

def peekAt (r : StringReader) (off : Nat) : Char :=
  r.string.getD (r.cursor + off) (Char.ofNat 0)

def peek (r : StringReader) : Char := peekAt r 0

def skip (r : StringReader) : StringReader := ⟨r.string, r.cursor + 1⟩

def read (r : StringReader) : Char × StringReader := (peek r, skip r)

def setCursor (r : StringReader) (c : Nat) : StringReader := ⟨r.string, c⟩

def getCursor (r : StringReader) : Nat := r.cursor

/-- The unread suffix (`self.string[self.cursor:]`). -/
def remaining (r : StringReader) : List Char := r.string.drop r.cursor

def advanceBy (r : StringReader) (n : Nat) : StringReader :=
  ⟨r.string, r.cursor + n⟩

/-- Advance over the maximal run of characters satisfying `p` (the shape of
every `while self.can_read() and p(self.peek()): self.skip()` loop). -/
def advanceWhile (r : StringReader) (p : Char → Bool) : StringReader :=
  advanceBy r ((remaining r).takeWhile p).length

def isAllowedNumber (c : Char) : Bool := "0123456789-.".toList.contains c

def isQuotedStringStart (c : Char) : Bool := c == squote || c == dquote

def isAllowedInUnquotedString (c : Char) : Bool :=
  c.isAlpha || c.isDigit || c == '-' || c == '+' || c == '_' || c == '.'

def skipWhitespace (r : StringReader) : StringReader := advanceWhile r pyIsSpace

/-- Python `int()` on a run of sign/digit/dot characters: a single optional
sign followed by at least one digit; anything else raises `ValueError`. -/
def pyNatDigits (ds : List Char) : Option Nat :=
  if !ds.isEmpty && ds.all Char.isDigit then
    some (ds.foldl (fun a c => 10 * a + (c.toNat - 48)) 0)
  else none

def pyInt : List Char → Option Int
  | [] => none
  | c :: ds =>
    if c = '-' then (pyNatDigits ds).map (fun n => -(n : Int))
    else if c = '+' then (pyNatDigits ds).map (fun n => (n : Int))
    else (pyNatDigits (c :: ds)).map (fun n => (n : Int))

/-- `read_int`: consume the maximal `[-.0-9]` run, parse it as base 10 and
range-check against the signed 32-bit range; an empty run is a
`SyntaxError`, a malformed or out-of-range number a `ValueError`. -/
def readInt (r : StringReader) : Except PyErr (Int × StringReader) :=
  let run := (remaining r).takeWhile isAllowedNumber
  if run.length = 0 then .error .syntaxError
  else
    match pyInt run with
    | none => .error .valueError
    | some v =>
      if v < -(2 ^ 31) ∨ (2 ^ 31 : Int) ≤ v then .error .valueError
      else .ok (v, advanceBy r run.length)

/-- `read_unquoted_string`: the maximal `[-+._0-9A-Za-z]` run. -/
def readUnquotedString (r : StringReader) : List Char × StringReader :=
  let run := (remaining r).takeWhile isAllowedInUnquotedString
  (run, advanceBy r run.length)

/-- The scan loop of `read_string_until`, over the unread suffix: returns
the unescaped body and the suffix after the terminator. -/
def rsuGo (term : Char) (s : List Char) (escaped : Bool) (acc : List Char) :
    Except PyErr (List Char × List Char) :=
  match s with
  | [] => .error .syntaxError
  | c :: rest =>
    if escaped then
      if c = term || c = backslash then rsuGo term rest false (acc ++ [c])
      else .error .syntaxError
    else if c = backslash then rsuGo term rest true acc
    else if c = term then .ok (acc, rest)
    else rsuGo term rest false (acc ++ [c])

/-- `read_string_until`: read until the unescaped terminator; a backslash
escapes only the terminator or another backslash; end of input before the
terminator is a syntax error. -/
def readStringUntil (term : Char) (r : StringReader) :
    Except PyErr (List Char × StringReader) :=
  match rsuGo term (remaining r) false [] with
  | .ok (res, rest) => .ok (res, setCursor r (r.string.length - rest.length))
  | .error e => .error e

/-- `read_quoted_string`: empty remaining input yields the empty string;
otherwise the next character must be a quote (if it is not, the source
interpolates an undefined variable `c` into its error message, so Python
raises `NameError` rather than the intended `SyntaxError`), which is then
consumed and the body read up to the matching terminator. -/
def readQuotedString (r : StringReader) :
    Except PyErr (List Char × StringReader) :=
  if !canRead r then .ok ([], r)
  else
    let nxt := peek r
    if !isQuotedStringStart nxt then .error .nameError
    else readStringUntil nxt (skip r)

/-- `read_string`: quoted or unquoted depending on the next character. -/
def readString (r : StringReader) : Except PyErr (List Char × StringReader) :=
  if !canRead r then .ok ([], r)
  else
    let nxt := peek r
    if isQuotedStringStart nxt then readStringUntil nxt (skip r)
    else .ok (readUnquotedString r)

/-- `expect`: the next character must be `c`; consume it. -/
def expect (c : Char) (r : StringReader) : Except PyErr StringReader :=
  if !canRead r || peek r != c then .error .syntaxError else .ok (skip r)

end StringReader

-- Mojangson (class MojangsonParser in nbt.py) ---------------------------------

open StringReader in
/-- `advance_and_fail_if_next_is_not`: skip whitespace, then `expect`. -/
def advanceExpect (c : Char) (r : StringReader) : Except PyErr StringReader :=
  expect c (skipWhitespace r)

open StringReader in
/-- `seek_to_next_comma_delim_element`: skip whitespace; if a comma is next,
consume it (and trailing whitespace) and report `true`. -/
def seekComma (r : StringReader) : Bool × StringReader :=
  let r := skipWhitespace r
  if canRead r && peek r == ',' then (true, skipWhitespace (skip r))
  else (false, r)

/-- External IEEE-754 decimal-to-binary conversions (Python `float()`
composed with `struct` packing): collaborating primitives outside this
repository, over which the parser theorems quantify. -/
structure FloatConv where
  f32 : List Char → Nat
  f64 : List Char → Nat

/-- Strip one leading `+` or `-`. -/
def stripSign : List Char → List Char
  | [] => []
  | c :: rest => if c = '+' || c = '-' then rest else c :: rest

/-- `(0|[1-9][0-9]*)`. -/
def isIntBody : List Char → Bool
  | [] => false
  | c :: rest =>
    if c = '0' then rest.isEmpty
    else (49 ≤ c.toNat && c.toNat ≤ 57) && rest.all Char.isDigit

def splitLast (ds : List Char) : Option (List Char × Char) :=
  match ds.getLast? with
  | some c => some (ds.dropLast, c)
  | none => none

/-- `^[-+]?(0|[1-9][0-9]*)X$` with a case-insensitive suffix letter
(`regexByte`/`regexShort`/`regexLong`). -/
def regexIntSuffix (suffix : Char) (s : List Char) : Bool :=
  match splitLast s with
  | some (body, c) => c.toLower == suffix && isIntBody (stripSign body)
  | none => false

/-- `regexInt`: `^[-+]?(0|[1-9][0-9]*)$`. -/
def regexIntMatch (s : List Char) : Bool := isIntBody (stripSign s)

/-- `[0-9]+[.]?` (digits, optional trailing dot). -/
def decDigitsOptDot (s : List Char) : Bool :=
  (!s.isEmpty && s.all Char.isDigit) ||
    (match splitLast s with
     | some (b, c) => c = '.' && !b.isEmpty && b.all Char.isDigit
     | none => false)

/-- `[0-9]+[.]` (digits, mandatory trailing dot). -/
def decDigitsDot (s : List Char) : Bool :=
  match splitLast s with
  | some (b, c) => c = '.' && !b.isEmpty && b.all Char.isDigit
  | none => false

/-- `[0-9]*[.][0-9]+`. -/
def decDotDigits (s : List Char) : Bool :=
  let pre := s.takeWhile Char.isDigit
  match s.drop pre.length with
  | c :: post => c = '.' && !post.isEmpty && post.all Char.isDigit
  | [] => false

/-- `(e[-+]?[0-9]+)?$` (case-insensitive), applied to the part after the
mantissa; the mantissa itself is dot/digit/sign only, so splitting at the
first `e`/`E` is exact. -/
def splitMantissa (s : List Char) : List Char × List Char :=
  let m := s.takeWhile (fun c => !(c == 'e' || c == 'E'))
  (m, s.drop m.length)

def expOk : List Char → Bool
  | [] => true
  | _ :: ex =>
    let body := stripSign ex
    !body.isEmpty && body.all Char.isDigit

/-- `regexFloat` / `regexDouble` (suffixed) and `regexDoubleNoSuffix`:
optional sign, decimal mantissa (dot mandatory when unsuffixed), optional
exponent, optional case-insensitive suffix letter. -/
def regexFloatLike (suffix : Option Char) (s : List Char) : Bool :=
  let core :=
    match suffix with
    | some c =>
      (match splitLast s with
       | some (body, last) => if last.toLower == c then some body else none
       | none => none)
    | none => some s
  match core with
  | none => false
  | some body =>
    let body := stripSign body
    let (m, ex) := splitMantissa body
    (match suffix with
     | some _ => decDigitsOptDot m || decDotDigits m
     | none => decDigitsDot m || decDotDigits m) && expOk ex

/-- Numeric value of a matched `[-+]?digits…` literal (used only on inputs
accepted by the integer regexes). -/
def pyIntOfMatched (s : List Char) : Int :=
  match s with
  | c :: rest =>
    if c = '-' then
      -((rest.foldl (fun a d => 10 * a + (d.toNat - 48)) 0 : Nat) : Int)
    else if c = '+' then
      ((rest.foldl (fun a d => 10 * a + (d.toNat - 48)) 0 : Nat) : Int)
    else (((c :: rest).foldl (fun a d => 10 * a + (d.toNat - 48)) 0 : Nat) : Int)
  | [] => 0

def toLowerList (s : List Char) : List Char := s.map Char.toLower

/-- `parse_literal`: classify an unquoted token by the regex cascade. -/
def parse_literal (fc : FloatConv) (s : List Char) : Tag :=
  if regexFloatLike (some 'f') s then .TagFloat (fc.f32 s.dropLast)
  else if regexIntSuffix 'b' s then .TagByte (pyIntOfMatched s.dropLast)
  else if regexIntSuffix 'l' s then .TagLong (pyIntOfMatched s.dropLast)
  else if regexIntSuffix 's' s then .TagShort (pyIntOfMatched s.dropLast)
  else if regexIntMatch s then .TagInt (pyIntOfMatched s)
  else if regexFloatLike (some 'd') s then .TagDouble (fc.f64 s.dropLast)
  else if regexFloatLike none s then .TagDouble (fc.f64 s)
  else if toLowerList s = "true".toList then .TagByte 1
  else if toLowerList s = "false".toList then .TagByte 0
  else .TagString (s.map Char.toNat)

/-- `new_value.value` for the scalar tags produced while parsing a typed
numeric array (the elements are plain Python ints). -/
def scalarValue : Tag → Int
  | .TagByte v => v
  | .TagShort v => v
  | .TagInt v => v
  | .TagLong v => v
  | _ => 0

open StringReader

/-- `parse_literal_or_string`. -/
def parse_literal_or_string (fc : FloatConv) (r : StringReader) :
    Except PyErr (Tag × StringReader) :=
  let r := skipWhitespace r
  if isQuotedStringStart (peek r) then
    match readQuotedString r with
    | .ok (chars, r') => .ok (.TagString (chars.map Char.toNat), r')
    | .error e => .error e
  else
    match readUnquotedString r with
    | (val, r1) =>
      if val.isEmpty then .error .syntaxError
      else .ok (parse_literal fc val, r1)

mutual

/-- `parse_any_tag`: dispatch on the next character.  `fuel` is a
termination budget only (the Python recursion is bounded by the cursor
advancing through the finite input). -/
def parse_any_tag (fc : FloatConv) (fuel : Nat) (r : StringReader) :
    Except PyErr (Tag × StringReader) :=
  match fuel with
  | 0 => .error .fuel
  | fuel + 1 =>
    let r := skipWhitespace r
    if !canRead r then .error .syntaxError
    else if peek r == lbrace then parse_compound fc fuel r
    else if peek r == '[' then parse_array fc fuel r
    else parse_literal_or_string fc r

/-- `parse_compound`. -/
def parse_compound (fc : FloatConv) (fuel : Nat) (r : StringReader) :
    Except PyErr (Tag × StringReader) :=
  match fuel with
  | 0 => .error .fuel
  | fuel + 1 =>
    match advanceExpect lbrace r with
    | .error e => .error e
    | .ok r1 => parse_compound_entries fc fuel [] (skipWhitespace r1)

/-- The `while` loop of `parse_compound`. -/
def parse_compound_entries (fc : FloatConv) (fuel : Nat)
    (acc : List (List Nat × Tag)) (r : StringReader) :
    Except PyErr (Tag × StringReader) :=
  match fuel with
  | 0 => .error .fuel
  | fuel + 1 =>
    if canRead r && peek r != rbrace then
      let r1 := skipWhitespace r
      if !canRead r1 then .error .syntaxError
      else
        match readString r1 with
        | .error e => .error e
        | .ok (key, r2) =>
          if key.isEmpty then .error .syntaxError
          else
            match advanceExpect ':' r2 with
            | .error e => .error e
            | .ok r3 =>
              match parse_any_tag fc fuel r3 with
              | .error e => .error e
              | .ok (v, r4) =>
                let acc := odInsert acc (key.map Char.toNat) v
                match seekComma r4 with
                | (true, r5) =>
                  if !canRead r5 then .error .syntaxError
                  else parse_compound_entries fc fuel acc r5
                | (false, r5) =>
                  match advanceExpect rbrace r5 with
                  | .ok r6 => .ok (.TagCompound acc, r6)
                  | .error e => .error e
    else
      match advanceExpect rbrace r with
      | .ok r' => .ok (.TagCompound acc, r')
      | .error e => .error e

/-- `parse_array`: `[X;`-prefixed arrays are typed numeric arrays. -/
def parse_array (fc : FloatConv) (fuel : Nat) (r : StringReader) :
    Except PyErr (Tag × StringReader) :=
  match fuel with
  | 0 => .error .fuel
  | fuel + 1 =>
    if canReadN r 3 && !isQuotedStringStart (peekAt r 1) && peekAt r 2 == ';'
    then parse_typed_numeric_array fc fuel r
    else parse_non_numeric_array fc fuel r

/-- `parse_non_numeric_array` (a list). -/
def parse_non_numeric_array (fc : FloatConv) (fuel : Nat) (r : StringReader) :
    Except PyErr (Tag × StringReader) :=
  match fuel with
  | 0 => .error .fuel
  | fuel + 1 =>
    match advanceExpect '[' r with
    | .error e => .error e
    | .ok r1 =>
      let r1 := skipWhitespace r1
      if !canRead r1 then .error .syntaxError
      else parse_list_elems fc fuel [] none r1

/-- The element loop of `parse_non_numeric_array`: the first element fixes
the list's item type; a later element of another type is a mixed-type
syntax error. -/
def parse_list_elems (fc : FloatConv) (fuel : Nat) (acc : List Tag)
    (itemKind : Option Nat) (r : StringReader) :
    Except PyErr (Tag × StringReader) :=
  match fuel with
  | 0 => .error .fuel
  | fuel + 1 =>
    if peek r != ']' then
      match parse_any_tag fc fuel r with
      | .error e => .error e
      | .ok (v, r1) =>
        let newKind := v.kindId
        if (match itemKind with
            | some k => decide (k ≠ newKind)
            | none => false) then .error .syntaxError
        else
          let acc := acc ++ [v]
          match seekComma r1 with
          | (true, r2) =>
            if !canRead r2 then .error .syntaxError
            else parse_list_elems fc fuel acc (some newKind) r2
          | (false, r2) =>
            match advanceExpect ']' r2 with
            | .ok r3 => .ok (.TagList acc, r3)
            | .error e => .error e
    else
      match advanceExpect ']' r with
      | .ok r' => .ok (.TagList acc, r')
      | .error e => .error e

/-- `parse_typed_numeric_array`: `[B;…]`, `[I;…]`, `[L;…]`. -/
def parse_typed_numeric_array (fc : FloatConv) (fuel : Nat)
    (r : StringReader) : Except PyErr (Tag × StringReader) :=
  match fuel with
  | 0 => .error .fuel
  | fuel + 1 =>
  match advanceExpect '[' r with
  | .error e => .error e
  | .ok r1 =>
    let (firstChar, r2) := read r1
    let (_, r3) := read r2
    let r3 := skipWhitespace r3
    if !canRead r3 then .error .syntaxError
    else if firstChar == 'B' then
      match parse_numeric_elems fc fuel 1 [] r3 with
      | .ok (vals, r4) =>
        .ok (.TagByteArray (vals.map (toTwos 1)), r4)
      | .error e => .error e
    else if firstChar == 'L' then
      match parse_numeric_elems fc fuel 4 [] r3 with
      | .ok (vals, r4) =>
        .ok (.TagLongArray (vals.map (toTwos 8)), r4)
      | .error e => .error e
    else if firstChar == 'I' then
      match parse_numeric_elems fc fuel 3 [] r3 with
      | .ok (vals, r4) =>
        .ok (.TagIntArray (vals.map (toTwos 4)), r4)
      | .error e => .error e
    else .error .syntaxError

/-- The element loop of `parse_typed_numeric_array` (`itemKind` is the
required scalar discriminant); elements are stored as plain ints, packed
to the array's width (`PackedArray.from_int_list`). -/
def parse_numeric_elems (fc : FloatConv) (fuel : Nat) (itemKind : Nat)
    (acc : List Int) (r : StringReader) :
    Except PyErr (List Int × StringReader) :=
  match fuel with
  | 0 => .error .fuel
  | fuel + 1 =>
    if peek r != ']' then
      match parse_any_tag fc fuel r with
      | .error e => .error e
      | .ok (v, r1) =>
        if v.kindId ≠ itemKind then .error .syntaxError
        else
          let acc := acc ++ [scalarValue v]
          match seekComma r1 with
          | (true, r2) =>
            if !canRead r2 then .error .syntaxError
            else parse_numeric_elems fc fuel itemKind acc r2
          | (false, r2) =>
            match advanceExpect ']' r2 with
            | .ok r3 => .ok (acc, r3)
            | .error e => .error e
    else
      match advanceExpect ']' r with
      | .ok r' => .ok (acc, r')
      | .error e => .error e

end

/-- `TagCompound.from_mojangson` on a shared reader
(`MojangsonParser(json).parse_compound()`). -/
def from_mojangson (fc : FloatConv) (fuel : Nat) (r : StringReader) :
    Except PyErr (Tag × StringReader) :=
  parse_compound fc fuel r

-- Path engine -----------------------------------------------------------------

/-- Decimal rendering of a natural number (for `f'[{index}]'`). -/
def natChars (n : Nat) : List Char :=
  if n < 10 then [Char.ofNat (48 + n)]
  else natChars (n / 10) ++ [Char.ofNat (48 + n % 10)]
decreasing_by exact Nat.div_lt_self (by omega) (by omega)

/-- Decimal rendering of an integer (Python `str` of an int). -/
def intChars (i : Int) : List Char :=
  if i < 0 then '-' :: natChars (-i).toNat else natChars i.toNat

/-- `f'[{index}]'`. -/
def indexChars (n : Nat) : List Char := '[' :: natChars n ++ [']']

/-- `nbt_path_join` for two components (the only arity the path engine
uses): empty second component is dropped; a bracketed component is
concatenated directly, anything else through a dot. -/
def nbt_path_join2 (a b : List Char) : List Char :=
  if b.isEmpty then a
  else if b.headD (Char.ofNat 0) = '[' then a ++ b
  else a ++ '.' :: b

/-- What `at_path` evaluates to: a tag, or the bare Python `False` that
`TagList.at_path` returns for an out-of-range index. -/
inductive PathVal where
  | tag (t : Tag)
  | pyFalse

/-- What the multipath iterators yield: tags, except that the `[]` wildcard
on a numeric array yields the raw integers stored in the array. -/
inductive Yield where
  | tag (t : Tag)
  | rawInt (n : Nat)

/-- `_Tag._nbt_path_node_prefix_check`: a leading `.` is a syntax error. -/
def prefixCheck (r : StringReader) : Except PyErr StringReader :=
  if canRead r && peek r == '.' then .error .syntaxError else .ok r

/-- `_Tag._nbt_path_node_suffix_check`: at a node boundary the next
character must be end-of-path, `.` (consumed) or `[`. -/
def suffixCheck (r : StringReader) : Except PyErr StringReader :=
  if canRead r then
    if peek r == '.' then .ok (skip r)
    else if peek r != '[' then .error .syntaxError
    else .ok r
  else .ok r

/-- Python negative-index access `self.value[index]` (in-range only). -/
def pyIndex (xs : List Tag) (i : Int) : Tag :=
  if 0 ≤ i then xs.getD i.toNat (.TagByte 0)
  else xs.getD (xs.length - (-i).toNat) (.TagByte 0)

/-- The characters `' .]}\\'` rejected at the start of a compound path
node. -/
def badNameStart (c : Char) : Bool :=
  c == ' ' || c == '.' || c == ']' || c == rbrace || c == backslash

/-- The characters `' .[]{}"'` terminating an unquoted compound key. -/
def nameStop (c : Char) : Bool :=
  c == ' ' || c == '.' || c == '[' || c == ']' || c == lbrace ||
    c == rbrace || c == dquote

/-- The characters `'.{['` that may legally follow an unquoted key. -/
def nameFollow (c : Char) : Bool :=
  c == '.' || c == lbrace || c == '['

/-- Outcome of parsing one compound path segment's key (shared by the four
query methods): the key's byte form, its raw spelling (quoted keys keep
their quotes, for the iterator's sub-paths), and the reader after it. -/
def readCompoundKey (r : StringReader) :
    Except PyErr (List Nat × List Char × StringReader) :=
  if peek r == dquote then
    let start := r.cursor
    let r1 := skip r
    match readStringUntil dquote r1 with
    | .error e => .error e
    | .ok (name, r2) =>
      let raw := (r.string.drop start).take (r2.cursor - start)
      .ok (name.map Char.toNat, raw, r2)
  else
    let run := (remaining r).takeWhile (fun c => !nameStop c)
    let r1 := advanceBy r run.length
    if canRead r1 && !nameFollow (peek r1) then .error .syntaxError
    else if run.isEmpty then .error .syntaxError
    else .ok (run.map Char.toNat, run, r1)

/-- `_ArrayTag.has_path` after the prefix check: index syntax only; a
trailing path raises `KeyError`; an out-of-range index is `False`; an
in-range index then calls `.has_path` on a plain integer, which raises
`AttributeError` (array elements are not tags). -/
def arrayHasPath (vs : List Nat) (r : StringReader) : Except PyErr Bool :=
  if !canRead r then .ok true
  else if peek r != '[' then .ok false
  else
    let r := skip r
    match readInt r with
    | .error e => .error e
    | .ok (index, r) =>
      if !canRead r || peek r != ']' then .ok false
      else
        let r := skip r
        match suffixCheck r with
        | .error e => .error e
        | .ok r =>
          if canRead r then .error .keyError
          else if index < -(vs.length : Int) ∨
              (vs.length : Int) ≤ index then .ok false
          else .error .attributeError

/-- `_ArrayTag.at_path` after the prefix check: malformed brackets are
syntax errors, a trailing path a `KeyError`, an out-of-range index an
`IndexError`, and an in-range index an `AttributeError` (the element is a
plain integer without an `at_path` method). -/
def arrayAtPath (t : Tag) (vs : List Nat) (r : StringReader) :
    Except PyErr PathVal :=
  if !canRead r then .ok (.tag t)
  else if peek r != '[' then .error .syntaxError
  else
    let r := skip r
    match readInt r with
    | .error e => .error e
    | .ok (index, r) =>
      if !canRead r || peek r != ']' then .error .syntaxError
      else
        let r := skip r
        match suffixCheck r with
        | .error e => .error e
        | .ok r =>
          if canRead r then .error .keyError
          else if index < -(vs.length : Int) ∨
              (vs.length : Int) ≤ index then .error .indexError
          else .error .attributeError

/-- `_ArrayTag.count_multipath` after the prefix check (it never touches
the elements, so in-range indexing works here). -/
def arrayCount (vs : List Nat) (r : StringReader) : Except PyErr Nat :=
  if !canRead r then .ok 1
  else if peek r != '[' then .ok 0
  else
    let r := skip r
    if !canRead r then .error .syntaxError
    else if peek r == ']' then
      let r := skip r
      match suffixCheck r with
      | .error e => .error e
      | .ok r => if canRead r then .ok 0 else .ok vs.length
    else
      match readInt r with
      | .error e => .error e
      | .ok (index, r) =>
        if !canRead r || peek r != ']' then .error .syntaxError
        else
          let r := skip r
          match suffixCheck r with
          | .error e => .error e
          | .ok r =>
            if canRead r then .ok 0
            else if index < -(vs.length : Int) ∨
                (vs.length : Int) ≤ index then .ok 0
            else .ok 1

/-- `_ArrayTag.iter_multipath_pair` after the prefix check: the `[]`
wildcard yields the raw integers stored in the array; an in-range single
index reaches `self.value[index].iter_multipath_pair`, an
`AttributeError`. -/
def arrayIter (t : Tag) (vs : List Nat) (r : StringReader) :
    Except PyErr (List (List Char × Yield)) :=
  if !canRead r then .ok [([], .tag t)]
  else if peek r != '[' then .ok []
  else
    let r := skip r
    if !canRead r then .error .syntaxError
    else if peek r == ']' then
      let r := skip r
      match suffixCheck r with
      | .error e => .error e
      | .ok r =>
        if canRead r then .error .keyError
        else .ok (vs.enum.map fun p => (indexChars p.1, .rawInt p.2))
    else
      match readInt r with
      | .error e => .error e
      | .ok (index, r) =>
        if !canRead r || peek r != ']' then .error .syntaxError
        else
          let r := skip r
          match suffixCheck r with
          | .error e => .error e
          | .ok r =>
            if canRead r then .error .keyError
            else if index < -(vs.length : Int) ∨
                (vs.length : Int) ≤ index then .ok []
            else .error .attributeError

mutual

/-- `has_path`, dispatched on the node's variant exactly as the Python
methods do (`_DataTag`, `TagString`, `_ArrayTag`, `TagList`,
`TagCompound`).  `fuel` only bounds the recursion (each call either
descends into a child tag or consumes path characters). -/
def hasPathF (fc : FloatConv) (fuel : Nat) (t : Tag) (r : StringReader) :
    Except PyErr Bool :=
  match fuel with
  | 0 => .error .fuel
  | fuel + 1 =>
    match prefixCheck r with
    | .error e => .error e
    | .ok r =>
      match t with
      | .TagByte _ | .TagShort _ | .TagInt _ | .TagLong _
      | .TagFloat _ | .TagDouble _ =>
        (match suffixCheck r with
         | .error e => .error e
         | .ok r => .ok (!canRead r))
      | .TagString _ => .ok (!canRead r)
      | .TagByteArray vs => arrayHasPath vs r
      | .TagIntArray vs => arrayHasPath vs r
      | .TagLongArray vs => arrayHasPath vs r
      | .TagList xs =>
        if !canRead r then .ok true
        else if peek r != '[' then .ok false
        else
          let r := skip r
          if !canRead r then .error .syntaxError
          else if peek r == ']' then
            let r := skip r
            match suffixCheck r with
            | .error e => .error e
            | .ok r => listAnyHasPath fc fuel xs r
          else
            match readInt r with
            | .error e => .error e
            | .ok (index, r) =>
              if !canRead r || peek r != ']' then .error .syntaxError
              else
                let r := skip r
                match suffixCheck r with
                | .error e => .error e
                | .ok r =>
                  if index < -(xs.length : Int) ∨
                      (xs.length : Int) ≤ index then .ok false
                  else hasPathF fc fuel (pyIndex xs index) r
      | .TagCompound kvs =>
        if !canRead r then .ok true
        else if peek r != lbrace then
          if peek r == '[' then .ok false
          else if badNameStart (peek r) then .error .syntaxError
          else
            match readCompoundKey r with
            | .error e => .error e
            | .ok (name, _, r1) =>
              match lookupTag kvs name with
              | none => .ok false
              | some target =>
                if !canRead r1 then .ok true
                else if peek r1 == '.' || peek r1 == '[' then
                  match suffixCheck r1 with
                  | .error e => .error e
                  | .ok r2 => hasPathF fc fuel target r2
                else hasPathFilter fc fuel target r1
        else hasPathFilter fc fuel (.TagCompound kvs) r

/-- The qualifying-`{}` block shared by the key and no-key branches of
`TagCompound.has_path`. -/
def hasPathFilter (fc : FloatConv) (fuel : Nat) (target : Tag)
    (r : StringReader) : Except PyErr Bool :=
  match fuel with
  | 0 => .error .fuel
  | fuel + 1 =>
  match from_mojangson fc fuel r with
  | .error e => .error e
  | .ok (mustMatch, r1) =>
    match suffixCheck r1 with
    | .error e => .error e
    | .ok r2 =>
      if mustMatch.is_subset target then hasPathF fc fuel target r2
      else .ok false

/-- The `for child in self.value` loop of `TagList.has_path` for the `[]`
wildcard: the cursor is reset for every child; the first hit wins. -/
def listAnyHasPath (fc : FloatConv) (fuel : Nat) (xs : List Tag)
    (r : StringReader) : Except PyErr Bool :=
  match fuel with
  | 0 => .error .fuel
  | fuel + 1 =>
  match xs with
  | [] => .ok false
  | x :: rest =>
    match hasPathF fc fuel x r with
    | .error e => .error e
    | .ok true => .ok true
    | .ok false => listAnyHasPath fc fuel rest r

end

mutual

/-- `at_path`, dispatched on the node's variant (`_DataTag.at_path`,
`TagString.at_path`, `_ArrayTag.at_path`, `TagList.at_path`,
`TagCompound.at_path`).  Note `TagList.at_path` literally `return False`
for an out-of-range index (`PathVal.pyFalse`). -/
def atPathF (fc : FloatConv) (fuel : Nat) (t : Tag) (r : StringReader) :
    Except PyErr PathVal :=
  match fuel with
  | 0 => .error .fuel
  | fuel + 1 =>
    match prefixCheck r with
    | .error e => .error e
    | .ok r =>
      match t with
      | .TagByte _ | .TagShort _ | .TagInt _ | .TagLong _
      | .TagFloat _ | .TagDouble _ | .TagString _ =>
        (match suffixCheck r with
         | .error e => .error e
         | .ok r => if !canRead r then .ok (.tag t) else .error .keyError)
      | .TagByteArray vs => arrayAtPath t vs r
      | .TagIntArray vs => arrayAtPath t vs r
      | .TagLongArray vs => arrayAtPath t vs r
      | .TagList xs =>
        if !canRead r then .ok (.tag t)
        else if peek r != '[' then .error .syntaxError
        else
          let r := skip r
          if !canRead r then .error .syntaxError
          else
            match readInt r with
            | .error e => .error e
            | .ok (index, r) =>
              if !canRead r || peek r != ']' then .error .syntaxError
              else
                let r := skip r
                match suffixCheck r with
                | .error e => .error e
                | .ok r =>
                  if index < -(xs.length : Int) ∨
                      (xs.length : Int) ≤ index then .ok .pyFalse
                  else atPathF fc fuel (pyIndex xs index) r
      | .TagCompound kvs =>
        if !canRead r then .ok (.tag t)
        else if peek r != lbrace then
          if peek r == '[' then .error .lookupError
          else if badNameStart (peek r) then .error .syntaxError
          else
            match readCompoundKey r with
            | .error e => .error e
            | .ok (name, _, r1) =>
              match lookupTag kvs name with
              | none => .error .keyError
              | some target =>
                if !canRead r1 then .ok (.tag target)
                else if peek r1 == '.' || peek r1 == '[' then
                  match suffixCheck r1 with
                  | .error e => .error e
                  | .ok r2 => atPathF fc fuel target r2
                else atPathFilter fc fuel target r1
        else atPathFilter fc fuel (.TagCompound kvs) r

/-- The qualifying-`{}` block of `TagCompound.at_path`: a failed subset
match raises `KeyError`. -/
def atPathFilter (fc : FloatConv) (fuel : Nat) (target : Tag)
    (r : StringReader) : Except PyErr PathVal :=
  match fuel with
  | 0 => .error .fuel
  | fuel + 1 =>
  match from_mojangson fc fuel r with
  | .error e => .error e
  | .ok (mustMatch, r1) =>
    match suffixCheck r1 with
    | .error e => .error e
    | .ok r2 =>
      if mustMatch.is_subset target then atPathF fc fuel target r2
      else .error .keyError

end

mutual

/-- `count_multipath`, dispatched on the node's variant. -/
def countF (fc : FloatConv) (fuel : Nat) (t : Tag) (r : StringReader) :
    Except PyErr Nat :=
  match fuel with
  | 0 => .error .fuel
  | fuel + 1 =>
    match prefixCheck r with
    | .error e => .error e
    | .ok r =>
      match t with
      | .TagByte _ | .TagShort _ | .TagInt _ | .TagLong _
      | .TagFloat _ | .TagDouble _ | .TagString _ =>
        (match suffixCheck r with
         | .error e => .error e
         | .ok r => if !canRead r then .ok 1 else .ok 0)
      | .TagByteArray vs => arrayCount vs r
      | .TagIntArray vs => arrayCount vs r
      | .TagLongArray vs => arrayCount vs r
      | .TagList xs =>
        if !canRead r then .ok 1
        else if peek r != '[' then .ok 0
        else
          let r := skip r
          if !canRead r then .error .syntaxError
          else if peek r == ']' then
            let r := skip r
            match suffixCheck r with
            | .error e => .error e
            | .ok r => listCountAll fc fuel xs r
          else if peek r == lbrace then
            -- list-of-matching-compounds case `[{...}]`; note the source
            -- checks for the closing `]` but never skips it, so the
            -- suffix check below always raises SyntaxError
            match from_mojangson fc fuel r with
            | .error e => .error e
            | .ok (mustMatch, r1) =>
              if !canRead r1 || peek r1 != ']' then .error .syntaxError
              else
                match suffixCheck r1 with
                | .error e => .error e
                | .ok r2 => listCountFiltered fc fuel mustMatch xs r2
          else
            match readInt r with
            | .error e => .error e
            | .ok (index, r) =>
              if !canRead r || peek r != ']' then .error .syntaxError
              else
                let r := skip r
                match suffixCheck r with
                | .error e => .error e
                | .ok r =>
                  if index < -(xs.length : Int) ∨
                      (xs.length : Int) ≤ index then .ok 0
                  else countF fc fuel (pyIndex xs index) r
      | .TagCompound kvs =>
        if !canRead r then .ok 1
        else if peek r != lbrace then
          if peek r == '[' then .ok 0
          else if badNameStart (peek r) then .error .syntaxError
          else
            match readCompoundKey r with
            | .error e => .error e
            | .ok (name, _, r1) =>
              match lookupTag kvs name with
              | none => .ok 0
              | some target =>
                if !canRead r1 then .ok 1
                else if peek r1 == '.' || peek r1 == '[' then
                  match suffixCheck r1 with
                  | .error e => .error e
                  | .ok r2 => countF fc fuel target r2
                else countFilter fc fuel target r1
        else countFilter fc fuel (.TagCompound kvs) r

/-- The qualifying-`{}` block of `TagCompound.count_multipath`. -/
def countFilter (fc : FloatConv) (fuel : Nat) (target : Tag)
    (r : StringReader) : Except PyErr Nat :=
  match fuel with
  | 0 => .error .fuel
  | fuel + 1 =>
  match from_mojangson fc fuel r with
  | .error e => .error e
  | .ok (mustMatch, r1) =>
    match suffixCheck r1 with
    | .error e => .error e
    | .ok r2 =>
      if mustMatch.is_subset target then countF fc fuel target r2
      else .ok 0

/-- The summation loop of `TagList.count_multipath` for `[]`. -/
def listCountAll (fc : FloatConv) (fuel : Nat) (xs : List Tag)
    (r : StringReader) : Except PyErr Nat :=
  match fuel with
  | 0 => .error .fuel
  | fuel + 1 =>
  match xs with
  | [] => .ok 0
  | x :: rest =>
    match countF fc fuel x r with
    | .error e => .error e
    | .ok n =>
      match listCountAll fc fuel rest r with
      | .error e => .error e
      | .ok m => .ok (n + m)

/-- The summation loop of `TagList.count_multipath` for `[{...}]`
(unreachable in practice: the un-skipped `]` fails the suffix check
first). -/
def listCountFiltered (fc : FloatConv) (fuel : Nat) (mustMatch : Tag)
    (xs : List Tag) (r : StringReader) : Except PyErr Nat :=
  match fuel with
  | 0 => .error .fuel
  | fuel + 1 =>
  match xs with
  | [] => .ok 0
  | x :: rest =>
    if !mustMatch.is_subset x then listCountFiltered fc fuel mustMatch rest r
    else
      match countF fc fuel x r with
      | .error e => .error e
      | .ok n =>
        match listCountFiltered fc fuel mustMatch rest r with
        | .error e => .error e
        | .ok m => .ok (n + m)

end

mutual

/-- `iter_multipath_pair`, dispatched on the node's variant; the lazy
generator is modelled by the list of the pairs it yields (an exception
anywhere in the iteration is reported for the whole run). -/
def iterF (fc : FloatConv) (fuel : Nat) (t : Tag) (r : StringReader) :
    Except PyErr (List (List Char × Yield)) :=
  match fuel with
  | 0 => .error .fuel
  | fuel + 1 =>
    match prefixCheck r with
    | .error e => .error e
    | .ok r =>
      match t with
      | .TagByte _ | .TagShort _ | .TagInt _ | .TagLong _
      | .TagFloat _ | .TagDouble _ | .TagString _ =>
        (match suffixCheck r with
         | .error e => .error e
         | .ok r => if !canRead r then .ok [([], .tag t)] else .ok [])
      | .TagByteArray vs => arrayIter t vs r
      | .TagIntArray vs => arrayIter t vs r
      | .TagLongArray vs => arrayIter t vs r
      | .TagList xs =>
        if !canRead r then .ok [([], .tag t)]
        else if peek r != '[' then .ok []
        else
          let r := skip r
          if !canRead r then .error .syntaxError
          else if peek r == ']' then
            let r := skip r
            match suffixCheck r with
            | .error e => .error e
            | .ok r => listIterAll fc fuel xs 0 r
          else if peek r == lbrace then
            -- `[{...}]`; the source never skips the checked `]`, so the
            -- suffix check below always raises SyntaxError
            match from_mojangson fc fuel r with
            | .error e => .error e
            | .ok (mustMatch, r1) =>
              if !canRead r1 || peek r1 != ']' then .error .syntaxError
              else
                match suffixCheck r1 with
                | .error e => .error e
                | .ok r2 => listIterFiltered fc fuel mustMatch xs 0 r2
          else
            match readInt r with
            | .error e => .error e
            | .ok (index, r) =>
              if !canRead r || peek r != ']' then .error .syntaxError
              else
                let r := skip r
                match suffixCheck r with
                | .error e => .error e
                | .ok r =>
                  if index < -(xs.length : Int) ∨
                      (xs.length : Int) ≤ index then .ok []
                  else
                    match iterF fc fuel (pyIndex xs index) r with
                    | .error e => .error e
                    | .ok ys =>
                      .ok (ys.map fun p =>
                        (nbt_path_join2
                          (indexChars (if 0 ≤ index then index.toNat
                            else xs.length - (-index).toNat)) p.1, p.2))
      | .TagCompound kvs =>
        if !canRead r then .ok [([], .tag t)]
        else if peek r != lbrace then
          if peek r == '[' then .ok []
          else if badNameStart (peek r) then .error .syntaxError
          else
            match readCompoundKey r with
            | .error e => .error e
            | .ok (name, raw, r1) =>
              match lookupTag kvs name with
              | none => .ok []
              | some target =>
                if !canRead r1 then .ok [(raw, .tag target)]
                else if peek r1 == '.' || peek r1 == '[' then
                  match suffixCheck r1 with
                  | .error e => .error e
                  | .ok r2 =>
                    match iterF fc fuel target r2 with
                    | .error e => .error e
                    | .ok ys =>
                      .ok (ys.map fun p => (nbt_path_join2 raw p.1, p.2))
                else iterFilter fc fuel target raw r1
        else iterFilter fc fuel (.TagCompound kvs) [] r

/-- The qualifying-`{}` block of `TagCompound.iter_multipath_pair` (`raw`
is the raw key spelling accumulated for the sub-paths; empty when the
filter applies to the compound itself). -/
def iterFilter (fc : FloatConv) (fuel : Nat) (target : Tag)
    (raw : List Char) (r : StringReader) :
    Except PyErr (List (List Char × Yield)) :=
  match fuel with
  | 0 => .error .fuel
  | fuel + 1 =>
  match from_mojangson fc fuel r with
  | .error e => .error e
  | .ok (mustMatch, r1) =>
    match suffixCheck r1 with
    | .error e => .error e
    | .ok r2 =>
      if mustMatch.is_subset target then
        match iterF fc fuel target r2 with
        | .error e => .error e
        | .ok ys => .ok (ys.map fun p => (nbt_path_join2 raw p.1, p.2))
      else .ok []

/-- The yield loop of `TagList.iter_multipath_pair` for `[]`. -/
def listIterAll (fc : FloatConv) (fuel : Nat) (xs : List Tag) (idx : Nat)
    (r : StringReader) : Except PyErr (List (List Char × Yield)) :=
  match fuel with
  | 0 => .error .fuel
  | fuel + 1 =>
  match xs with
  | [] => .ok []
  | x :: rest =>
    match iterF fc fuel x r with
    | .error e => .error e
    | .ok ys =>
      match listIterAll fc fuel rest (idx + 1) r with
      | .error e => .error e
      | .ok more =>
        .ok ((ys.map fun p => (nbt_path_join2 (indexChars idx) p.1, p.2))
          ++ more)

/-- The yield loop of `TagList.iter_multipath_pair` for `[{...}]`
(unreachable in practice: the un-skipped `]` fails the suffix check
first). -/
def listIterFiltered (fc : FloatConv) (fuel : Nat) (mustMatch : Tag)
    (xs : List Tag) (idx : Nat) (r : StringReader) :
    Except PyErr (List (List Char × Yield)) :=
  match fuel with
  | 0 => .error .fuel
  | fuel + 1 =>
  match xs with
  | [] => .ok []
  | x :: rest =>
    if !mustMatch.is_subset x then
      listIterFiltered fc fuel mustMatch rest (idx + 1) r
    else
      match iterF fc fuel x r with
      | .error e => .error e
      | .ok ys =>
        match listIterFiltered fc fuel mustMatch rest (idx + 1) r with
        | .error e => .error e
        | .ok more =>
          .ok ((ys.map fun p => (nbt_path_join2 (indexChars idx) p.1, p.2))
            ++ more)

end

mutual

/-- Node count of a tag tree (an executable recursion bound). -/
def Tag.nodeSize : Tag → Nat
  | .TagList xs => 1 + Tag.nodeSizeList xs
  | .TagCompound kvs => 1 + Tag.nodeSizeEntries kvs
  | _ => 1

def Tag.nodeSizeList : List Tag → Nat
  | [] => 0
  | x :: xs => x.nodeSize + Tag.nodeSizeList xs

def Tag.nodeSizeEntries : List (List Nat × Tag) → Nat
  | [] => 0
  | (_, v) :: rest => v.nodeSize + Tag.nodeSizeEntries rest

end

/-- Fuel that dominates the path recursion: every recursive call either
descends into a strictly smaller tag or consumes at least one path
character. -/
def pathFuel (t : Tag) (p : List Char) : Nat :=
  Tag.nodeSize t + p.length + 1

/-- `has_path` on a path string. -/
def Tag.has_path (fc : FloatConv) (t : Tag) (p : List Char) :
    Except PyErr Bool :=
  hasPathF fc (pathFuel t p) t (mkReader p)

/-- `at_path` on a path string. -/
def Tag.at_path (fc : FloatConv) (t : Tag) (p : List Char) :
    Except PyErr PathVal :=
  atPathF fc (pathFuel t p) t (mkReader p)

/-- `count_multipath` on a path string. -/
def Tag.count_multipath (fc : FloatConv) (t : Tag) (p : List Char) :
    Except PyErr Nat :=
  countF fc (pathFuel t p) t (mkReader p)

/-- `iter_multipath_pair` on a path string. -/
def Tag.iter_multipath_pair (fc : FloatConv) (t : Tag) (p : List Char) :
    Except PyErr (List (List Char × Yield)) :=
  iterF fc (pathFuel t p) t (mkReader p)

/-- `iter_multipath`: the tags of `iter_multipath_pair`. -/
def Tag.iter_multipath (fc : FloatConv) (t : Tag) (p : List Char) :
    Except PyErr (List Yield) :=
  match Tag.iter_multipath_pair fc t p with
  | .error e => .error e
  | .ok ys => .ok (ys.map Prod.snd)

-- Region files (class RegionFile in nbt.py) -----------------------------------

/-- A region file is modelled as its raw byte content.  `zlib`
compression/decompression and the tag-tree encode/decode around it are
external to the allocator, so the chunk payload enters the model as the
already-compressed byte string. -/
def readU32 (f : List Nat) (pos : Nat) : Nat :=
  ((f.getD pos 0 * 256 + f.getD (pos + 1) 0) * 256 + f.getD (pos + 2) 0)
    * 256 + f.getD (pos + 3) 0

/-- Extend a file with zero bytes up to length `n` (`seek` past the end of
a file opened `r+b` reads/writes as if zero-filled). -/
def padTo (f : List Nat) (n : Nat) : List Nat :=
  f ++ List.replicate (n - f.length) 0

/-- `fd.seek(pos); fd.write(bs)`. -/
def writeAt (f : List Nat) (pos : Nat) (bs : List Nat) : List Nat :=
  (padTo f pos).take pos ++ bs ++ (padTo f pos).drop (pos + bs.length)

/-- `fd.seek(n); fd.truncate()`. -/
def truncateTo (f : List Nat) (n : Nat) : List Nat := (padTo f n).take n

/-- The extent-collection loop of `save_chunk`/`restore_chunk`: unpack the
first 4096 header bytes as 1024 big-endian u32 entries, keeping
`(offset, length)` for every nonzero-offset entry other than the slot
being written. -/
def collectExtentsGo (bytes : List Nat) (idx : Nat) (sx sz : Nat)
    (acc : List (Nat × Nat)) : List (Nat × Nat) :=
  match bytes with
  | b0 :: b1 :: b2 :: b3 :: rest =>
    if idx < 1024 then
      let entry := ((b0 * 256 + b1) * 256 + b2) * 256 + b3
      let off := entry / 256
      let len := entry % 256
      if 0 < off && !(idx % 32 == sx && idx / 32 == sz) then
        collectExtentsGo rest (idx + 1) sx sz (acc ++ [(off, len)])
      else collectExtentsGo rest (idx + 1) sx sz acc
    else acc
  | _ => acc

def collectExtents (f : List Nat) (sx sz : Nat) : List (Nat × Nat) :=
  collectExtentsGo (f.take 4096) 0 sx sz []

/-- `extents.sort()`: ascending sort in the lexicographic tuple order
(`extentLe` is a total order, so any sorting algorithm computes the same
list as Python's stable sort; insertion sort keeps the model executable).
-/
def extentLe (a b : Nat × Nat) : Bool :=
  a.1 < b.1 || (a.1 == b.1 && a.2 ≤ b.2)

def insertSorted (x : Nat × Nat) : List (Nat × Nat) → List (Nat × Nat)
  | [] => [x]
  | y :: ys => if extentLe y x then y :: insertSorted x ys else x :: y :: ys

def sortExtents : List (Nat × Nat) → List (Nat × Nat)
  | [] => []
  | x :: xs => insertSorted x (sortExtents xs)

/-- The first-fit scan: the first index whose gap to the next extent can
hold `L` sectors, together with the gap's start. -/
def findGapIdx (ext : List (Nat × Nat)) (i : Nat) (L : Nat) :
    Option (Nat × Nat) :=
  match ext with
  | a :: b :: rest =>
    if L ≤ b.1 - (a.1 + a.2) then some (i, a.1 + a.2)
    else findGapIdx (b :: rest) (i + 1) L
  | _ => none

/-- `list.insert(i, x)` (clamping to the end like Python). -/
def insertAt (l : List (Nat × Nat)) (i : Nat) (x : Nat × Nat) :
    List (Nat × Nat) :=
  match l, i with
  | l, 0 => x :: l
  | [], _ + 1 => [x]
  | y :: ys, i + 1 => y :: insertAt ys i x

/-- The placement computed by `save_chunk`/`restore_chunk`: the header
extent `(0, 2)`, the other slots' extents, sorted, a sentinel at
`last end + L`, then the first-fit scan and the insertion; the file is
afterwards truncated at the final extent's offset. -/
structure Layout where
  chunkOffset : Nat
  truncOffset : Nat

def computeLayout (f : List Nat) (sx sz : Nat) (L : Nat) : Option Layout :=
  let sorted := sortExtents ((0, 2) :: collectExtents f sx sz)
  let last := sorted.getLastD (0, 0)
  let ext := sorted ++ [(last.1 + last.2 + L, 0)]
  match findGapIdx ext 0 L with
  | none => none
  | some (i, off) =>
    let ext2 := insertAt ext (i + 1) (off, L)
    some ⟨off, (ext2.getLastD (0, 0)).1⟩

/-- Sector count of a blob: `1 + (len(chunk) - 1) // 4096`. -/
def sectorCount (blobLen : Nat) : Nat := 1 + (blobLen - 1) / 4096

/-- `RegionFile.save_chunk`, with the zlib-compressed tag encoding supplied
as `compressed` and the chunk's `xPos`/`zPos` values as integers (the
source masks them with `& 0x1f`): write the packed location entry, the
timestamp, the length-prefixed blob, and truncate at the final extent. -/
def saveChunk (f : List Nat) (xPos zPos : Int) (now : Nat)
    (compressed : List Nat) : Option (List Nat) :=
  let sx := (xPos % 32).toNat
  let sz := (zPos % 32).toNat
  let chunk := packBE 4 compressed.length ++ [2] ++ compressed
  let L := sectorCount chunk.length
  match computeLayout f sx sz L with
  | none => none
  | some lay =>
    let f1 := writeAt f (4 * (32 * sz + sx))
      (packBE 4 (lay.chunkOffset * 256 + L % 256))
    let f2 := writeAt f1 (4096 + 4 * (32 * sz + sx)) (packBE 4 now)
    let f3 := writeAt f2 (4096 * lay.chunkOffset) chunk
    some (truncateTo f3 (4096 * lay.truncOffset))

/-- `RegionFile.load_chunk` up to the bytes handed to `zlib.decompress`:
`None` for a zero offset, otherwise the slot's sector range is read and
the declared compressed length is clamped to the bytes actually available
(`min(compressed_size, len(buff))`). -/
def loadChunkRaw (f : List Nat) (cx cz : Nat) :
    Except PyErr (Option (List Nat)) :=
  let entry := readU32 f (4 * (32 * cz + cx))
  let off := entry / 256
  let len := entry % 256
  if off = 0 then .ok none
  else
    match (f.drop (4096 * off)).take (4096 * len) with
    | b0 :: b1 :: b2 :: b3 :: _b4 :: rest =>
      let declared := ((b0 * 256 + b1) * 256 + b2) * 256 + b3
      .ok (some (rest.take (min declared rest.length)))
    | _ => .error .bufferUnderrun

/-- `RegionFile.restore_chunk`: copy the raw compressed bytes of a chunk
from `old` into `self` using the same allocator as `save_chunk` (the
allocation length is the *old entry's* length field).  A zero source entry
returns `False` before any write to `self`. -/
def restoreChunk (self old : List Nat) (cx cz : Nat) (now : Nat) :
    Except PyErr (Bool × List Nat) :=
  let entry := readU32 old (4 * (32 * cz + cx))
  if entry = 0 then .ok (false, self)
  else
    let off := entry / 256
    let len := entry % 256
    match (old.drop (4096 * off)).take (4096 * len) with
    | b0 :: b1 :: b2 :: b3 :: _b4 :: rest =>
      let declared := ((b0 * 256 + b1) * 256 + b2) * 256 + b3
      if rest.length < declared then .error .bufferUnderrun
      else
        let oldChunk := rest.take declared
        let chunk := packBE 4 oldChunk.length ++ [2] ++ oldChunk
        match computeLayout self cx cz len with
        | none => .error .nameError
        | some lay =>
          let f1 := writeAt self (4 * (32 * cz + cx))
            (packBE 4 (lay.chunkOffset * 256 + len % 256))
          let f2 := writeAt f1 (4096 + 4 * (32 * cz + cx)) (packBE 4 now)
          let f3 := writeAt f2 (4096 * lay.chunkOffset) chunk
          .ok (true, truncateTo f3 (4096 * lay.truncOffset))
    | _ => .error .bufferUnderrun

-- Layout lemmas ---------------------------------------------------------------

/-- End of the last sorted extent among the header and the other slots'
chunks (the quantity the truncation sentinel is built from). -/
def othersLastEnd (f : List Nat) (sx sz : Nat) : Nat :=
  let sorted := sortExtents ((0, 2) :: collectExtents f sx sz)
  (sorted.getLastD (0, 0)).1 + (sorted.getLastD (0, 0)).2

theorem findGapIdx_total (ys : List (Nat × Nat)) (a s : Nat × Nat)
    (i L : Nat) (h : L ≤ s.1 - (a.1 + a.2)) :
    ∃ j off, findGapIdx (ys ++ [a, s]) i L = some (j, off) ∧
      j + 2 ≤ i + (ys ++ [a, s]).length := by
  induction ys generalizing i with
  | nil =>
    refine ⟨i, a.1 + a.2, ?_, by simp⟩
    simp [findGapIdx, h]
  | cons y ys ih =>
    match hys : ys ++ [a, s] with
    | [] => simp at hys
    | y2 :: tl =>
      have hlen : (y2 :: tl).length = ys.length + 2 := by
        rw [← hys]; simp
      by_cases hfit : L ≤ y2.1 - (y.1 + y.2)
      · refine ⟨i, y.1 + y.2, ?_, ?_⟩
        · simp [hys, findGapIdx, hfit]
        · simp only [List.cons_append, List.length_cons, hys]
          omega
      · obtain ⟨j, off, heq, hb⟩ := ih (i + 1)
        refine ⟨j, off, ?_, ?_⟩
        · simp only [List.cons_append, hys, findGapIdx, if_neg hfit]
          rw [← hys, heq]
        · have h1 : (ys ++ [a, s]).length = ys.length + 2 := by simp
          have h2 : ((y :: ys) ++ [a, s]).length = ys.length + 3 := by simp
          omega

theorem findGapIdx_mem (l : List (Nat × Nat)) (i L j off : Nat)
    (h : findGapIdx l i L = some (j, off)) :
    ∃ a ∈ l.dropLast, off = a.1 + a.2 := by
  induction l generalizing i with
  | nil => simp [findGapIdx] at h
  | cons a l ih =>
    match l with
    | [] => simp [findGapIdx] at h
    | b :: tl =>
      have hdl : (a :: b :: tl).dropLast = a :: (b :: tl).dropLast := rfl
      simp only [findGapIdx] at h
      by_cases hfit : L ≤ b.1 - (a.1 + a.2)
      · rw [if_pos hfit] at h
        simp only [Option.some.injEq, Prod.mk.injEq] at h
        exact ⟨a, by rw [hdl]; exact List.mem_cons_self _ _, h.2.symm⟩
      · rw [if_neg hfit] at h
        obtain ⟨x, hx, hoff⟩ := ih (i + 1) h
        exact ⟨x, by rw [hdl]; exact List.mem_cons_of_mem _ hx, hoff⟩

theorem insertAt_getLastD (l : List (Nat × Nat)) (i : Nat) (x d : Nat × Nat)
    (h : i < l.length) : (insertAt l i x).getLastD d = l.getLastD d := by
  induction l generalizing i d with
  | nil => simp at h
  | cons y ys ih =>
    match i with
    | 0 => simp [insertAt, List.getLastD_cons]
    | i + 1 =>
      have hlen : i < ys.length := by simpa using h
      simp only [insertAt, List.getLastD_cons]
      exact ih i y hlen

theorem padTo_length (f : List Nat) (n : Nat) :
    (padTo f n).length = max f.length n := by
  simp [padTo]
  omega

theorem truncateTo_length (f : List Nat) (n : Nat) :
    (truncateTo f n).length = n := by
  simp [truncateTo, padTo_length]

theorem mem_insertSorted (x y : Nat × Nat) (l : List (Nat × Nat)) :
    y ∈ insertSorted x l ↔ y = x ∨ y ∈ l := by
  induction l with
  | nil => simp [insertSorted]
  | cons z zs ih =>
    simp only [insertSorted]
    by_cases hle : extentLe z x
    · simp only [hle, if_true, List.mem_cons, ih]
      tauto
    · simp only [hle, if_false, List.mem_cons, Bool.false_eq_true]
      try tauto

theorem mem_sortExtents (l : List (Nat × Nat)) (x : Nat × Nat) :
    x ∈ sortExtents l ↔ x ∈ l := by
  induction l with
  | nil => simp [sortExtents]
  | cons y ys ih =>
    simp only [sortExtents, mem_insertSorted, ih, List.mem_cons]

theorem sortExtents_ne_nil (l : List (Nat × Nat)) (x : Nat × Nat)
    (hx : x ∈ l) : sortExtents l ≠ [] := by
  intro hnil
  have := (mem_sortExtents l x).mpr hx
  rw [hnil] at this
  simp at this

theorem getD_replicate_zero (r m : Nat) :
    (List.replicate r (0 : Nat)).getD m 0 = 0 := by
  rcases lt_or_le m r with h2 | h2
  · rw [List.getD_eq_getElem _ _ (by simpa using h2)]
    simp
  · rw [List.getD_eq_default _ _ (by simpa using h2)]

theorem getD_padTo (f : List Nat) (n i : Nat) :
    (padTo f n).getD i 0 = f.getD i 0 := by
  unfold padTo
  rcases lt_or_le i f.length with h | h
  · rw [List.getD_append _ _ _ _ h]
  · rw [List.getD_append_right _ _ _ _ h, List.getD_eq_default _ _ h,
      getD_replicate_zero]

theorem getD_take_lt (l : List Nat) (n i : Nat) (h : i < n) :
    (l.take n).getD i 0 = l.getD i 0 := by
  rcases lt_or_le i l.length with h2 | h2
  · rw [List.getD_eq_getElem _ _ (by simp; omega), List.getElem_take,
      List.getD_eq_getElem _ _ h2]
  · rw [List.getD_eq_default _ _ (by simp; omega),
      List.getD_eq_default _ _ h2]

theorem getD_writeAt_lt (f : List Nat) (pos : Nat) (bs : List Nat) (i : Nat)
    (h : i < pos) : (writeAt f pos bs).getD i 0 = f.getD i 0 := by
  unfold writeAt
  have hlen : ((padTo f pos).take pos).length = pos := by
    simp [padTo_length]
  rw [List.append_assoc, List.getD_append _ _ _ _ (by omega),
    getD_take_lt _ _ _ h, getD_padTo]

theorem getD_writeAt_in (f : List Nat) (pos : Nat) (bs : List Nat) (i : Nat)
    (h1 : pos ≤ i) (h2 : i < pos + bs.length) :
    (writeAt f pos bs).getD i 0 = bs.getD (i - pos) 0 := by
  unfold writeAt
  have hlen : ((padTo f pos).take pos).length = pos := by
    simp [padTo_length]
  rw [List.append_assoc, List.getD_append_right _ _ _ _ (by omega), hlen,
    List.getD_append _ _ _ _ (by omega)]

theorem getD_truncateTo (f : List Nat) (n i : Nat) (h : i < n) :
    (truncateTo f n).getD i 0 = f.getD i 0 := by
  unfold truncateTo
  rw [getD_take_lt _ _ _ h, getD_padTo]

theorem readU32_writeAt_before (f : List Nat) (pos : Nat) (bs : List Nat)
    (p : Nat) (h : p + 4 ≤ pos) : readU32 (writeAt f pos bs) p = readU32 f p := by
  unfold readU32
  rw [getD_writeAt_lt _ _ _ _ (by omega), getD_writeAt_lt _ _ _ _ (by omega),
    getD_writeAt_lt _ _ _ _ (by omega), getD_writeAt_lt _ _ _ _ (by omega)]

theorem readU32_truncateTo (f : List Nat) (n p : Nat) (h : p + 4 ≤ n) :
    readU32 (truncateTo f n) p = readU32 f p := by
  unfold readU32
  rw [getD_truncateTo _ _ _ (by omega), getD_truncateTo _ _ _ (by omega),
    getD_truncateTo _ _ _ (by omega), getD_truncateTo _ _ _ (by omega)]

theorem readU32_writeAt_at (f : List Nat) (p v : Nat) (h : v < 2 ^ 32) :
    readU32 (writeAt f p (packBE 4 v)) p = v := by
  have hlen : (packBE 4 v).length = 4 := packBE_length 4 v
  have hb : ∀ i, i < 4 → (writeAt f p (packBE 4 v)).getD (p + i) 0 =
      (packBE 4 v).getD i 0 := by
    intro i hi
    rw [getD_writeAt_in _ _ _ _ (by omega) (by omega)]
    congr 1
    omega
  unfold readU32
  rw [show p + 1 = p + 1 from rfl]
  have h0 := hb 0 (by omega)
  have h1 := hb 1 (by omega)
  have h2 := hb 2 (by omega)
  have h3 := hb 3 (by omega)
  simp only [Nat.add_zero] at h0
  rw [h1, h2, h3]
  rw [show (writeAt f p (packBE 4 v)).getD p 0 =
    (packBE 4 v).getD 0 0 from h0]
  show ((((v / 256 ^ 3) % 256) * 256 + (v / 256 ^ 2) % 256) * 256 +
    (v / 256 ^ 1) % 256) * 256 + (v / 256 ^ 0) % 256 = v
  have e3 : (256 : Nat) ^ 3 = 16777216 := by norm_num
  have e2 : (256 : Nat) ^ 2 = 65536 := by norm_num
  simp only [e3, e2, pow_one, pow_zero, Nat.div_one]
  omega

/-- `computeLayout` always succeeds, truncates at `othersLastEnd + L`, and
places the chunk at the end of some existing extent (or of the header). -/
theorem computeLayout_some (f : List Nat) (sx sz L : Nat) :
    ∃ off, computeLayout f sx sz L = some ⟨off, othersLastEnd f sx sz + L⟩ ∧
      ∃ a ∈ (0, 2) :: collectExtents f sx sz, off = a.1 + a.2 := by
  have hne : sortExtents ((0, 2) :: collectExtents f sx sz) ≠ [] :=
    sortExtents_ne_nil _ (0, 2) (by simp)
  obtain ⟨ys, a, hsorted⟩ :=
    (List.eq_nil_or_concat (sortExtents ((0, 2) :: collectExtents f sx sz))
      ).resolve_left hne
  rw [List.concat_eq_append] at hsorted
  have hlast : (sortExtents ((0, 2) :: collectExtents f sx sz)).getLastD
      (0, 0) = a := by
    rw [hsorted]
    simp [List.getLastD_concat]
  have hext : sortExtents ((0, 2) :: collectExtents f sx sz)
      ++ [(a.1 + a.2 + L, 0)] = ys ++ [a, (a.1 + a.2 + L, 0)] := by
    rw [hsorted]
    simp
  obtain ⟨j, off, hfind, hj⟩ :=
    findGapIdx_total ys a (a.1 + a.2 + L, 0) 0 L (by simp)
  have hOL : othersLastEnd f sx sz = a.1 + a.2 := by
    unfold othersLastEnd
    simp only [hlast]
  refine ⟨off, ?_, ?_⟩
  · unfold computeLayout
    simp only [hlast, hext, hfind]
    have hj2 : j + 1 < (ys ++ [a, (a.1 + a.2 + L, 0)]).length := by omega
    rw [insertAt_getLastD _ _ _ _ hj2]
    have hsent : (ys ++ [a, (a.1 + a.2 + L, 0)]).getLastD (0, 0) =
        (a.1 + a.2 + L, 0) := by
      rw [show ys ++ [a, (a.1 + a.2 + L, 0)] =
        (ys ++ [a]) ++ [(a.1 + a.2 + L, 0)] by simp, List.getLastD_concat]
    rw [hsent, hOL]
  · obtain ⟨x, hx, hoff⟩ := findGapIdx_mem _ _ _ _ _ hfind
    have hxs : x ∈ ys ++ [a] := by
      have : (ys ++ [a, (a.1 + a.2 + L, 0)]).dropLast = ys ++ [a] := by
        rw [show ys ++ [a, (a.1 + a.2 + L, 0)] =
          (ys ++ [a]) ++ [(a.1 + a.2 + L, 0)] by simp]
        simp
      rwa [this] at hx
    rw [← hsorted] at hxs
    exact ⟨x, (mem_sortExtents _ _).mp hxs, hoff⟩

-- TagString printing (C9) ------------------------------------------------------

/-- Python `str.replace` for a single-character needle. -/
def pyReplace (target : Char) (repl : List Char) (s : List Char) :
    List Char :=
  s.flatMap fun c => if c = target then repl else [c]

/-- `TagString.use_single_quotes`: prefer the quote that occurs less often
in the text; on a tie prefer double quotes unless a single quote occurs
first... the tie-break compares the first occurrence positions via
`str.find`. -/
def use_single_quotes (text : List Char) : Bool :=
  let sc := text.count squote
  let dc := text.count dquote
  if sc = dc then
    if sc = 0 then false
    else text.indexOf dquote < text.indexOf squote
  else sc < dc

/-- `TagString.escape_value`: the source first rewrites `\\` to `\\\\` and
`\n` to `\\n"` (note the stray double quote in the replacement string),
then evaluates `self.use_single_quotes(text)` — but `escape_value` is a
`@staticmethod`, so `self` is an unbound name and Python raises
`NameError` on every call. -/
def escape_value (text : List Char) : Except PyErr (List Char) :=
  let t1 := pyReplace newlineChar [backslash, 'n', dquote]
    (pyReplace backslash [backslash, backslash] text)
  let _ := t1
  .error .nameError

/-- `TagString.to_mojangson` (unhighlighted): quote choice from
`use_single_quotes` on the raw value, body from `escape_value`. -/
def tagStringToMojangson (value : List Char) : Except PyErr (List Char) :=
  let q := if use_single_quotes value then squote else dquote
  match escape_value value with
  | .error e => .error e
  | .ok body => .ok ([q] ++ body ++ [q])

-- readQuotedString (C8) --------------------------------------------------------

/-- A string body escaped for a quoted literal with terminator `q`:
the terminator and the backslash get a backslash prefix, everything else
is verbatim. -/
def encodeQuoted (q : Char) (body : List Char) : List Char :=
  body.flatMap fun c => if c = q || c = backslash then [backslash, c] else [c]

theorem rsuGo_step_normal (q c : Char) (s acc : List Char)
    (h1 : c ≠ backslash) (h2 : c ≠ q) :
    rsuGo q (c :: s) false acc = rsuGo q s false (acc ++ [c]) := by
  simp [rsuGo, h1, h2]

theorem rsuGo_step_term (q : Char) (s acc : List Char) (h1 : q ≠ backslash) :
    rsuGo q (q :: s) false acc = .ok (acc, s) := by
  simp [rsuGo, h1]

theorem rsuGo_step_escape (q c : Char) (s acc : List Char)
    (hc : c = q ∨ c = backslash) :
    rsuGo q (backslash :: c :: s) false acc = rsuGo q s false (acc ++ [c]) := by
  rw [show rsuGo q (backslash :: c :: s) false acc =
    rsuGo q (c :: s) true acc by simp [rsuGo]]
  rcases hc with h | h <;> subst h <;> simp [rsuGo]

theorem rsuGo_step_bad_escape (q c : Char) (s acc : List Char)
    (h1 : c ≠ q) (h2 : c ≠ backslash) :
    rsuGo q (backslash :: c :: s) false acc = .error .syntaxError := by
  rw [show rsuGo q (backslash :: c :: s) false acc =
    rsuGo q (c :: s) true acc by simp [rsuGo]]
  simp [rsuGo, h1, h2]

theorem isQuotedStringStart_ne_backslash (q : Char)
    (hq : isQuotedStringStart q = true) : q ≠ backslash := by
  simp only [isQuotedStringStart, Bool.or_eq_true, beq_iff_eq] at hq
  rcases hq with h | h <;> subst h <;> decide

theorem rsuGo_encode (q : Char) (hq : isQuotedStringStart q = true)
    (body : List Char) (acc rest : List Char) :
    rsuGo q (encodeQuoted q body ++ q :: rest) false acc =
      .ok (acc ++ body, rest) := by
  have hqb := isQuotedStringStart_ne_backslash q hq
  induction body generalizing acc with
  | nil =>
    simp only [encodeQuoted, List.flatMap_nil, List.nil_append,
      rsuGo_step_term q _ _ hqb, List.append_nil]
  | cons c cs ih =>
    by_cases hspec : c = q ∨ c = backslash
    · have hcond : (c = q || c = backslash) = true := by
        simp only [Bool.or_eq_true, decide_eq_true_eq]; exact hspec
      simp only [encodeQuoted, List.flatMap_cons, hcond, if_true,
        List.cons_append, List.append_assoc, List.nil_append]
      rw [rsuGo_step_escape q c _ _ hspec]
      have := ih (acc ++ [c])
      simp only [encodeQuoted, List.append_assoc] at this ⊢
      rw [this]
      simp
    · push_neg at hspec
      have hcond : (c = q || c = backslash) = false := by
        simp only [Bool.or_eq_false_iff, decide_eq_false_iff_not]
        exact ⟨hspec.1, hspec.2⟩
      simp only [encodeQuoted, List.flatMap_cons, hcond, Bool.false_eq_true,
        if_false, List.cons_append, List.nil_append]
      rw [rsuGo_step_normal q c _ _ hspec.2 hspec.1]
      have := ih (acc ++ [c])
      simp only [encodeQuoted] at this
      rw [this]
      simp

theorem rsuGo_encode_eof (q : Char) (hq : isQuotedStringStart q = true)
    (body : List Char) (acc : List Char) :
    rsuGo q (encodeQuoted q body) false acc = .error .syntaxError := by
  have hqb := isQuotedStringStart_ne_backslash q hq
  induction body generalizing acc with
  | nil => simp [encodeQuoted, rsuGo]
  | cons c cs ih =>
    by_cases hspec : c = q ∨ c = backslash
    · have hcond : (c = q || c = backslash) = true := by
        simp only [Bool.or_eq_true, decide_eq_true_eq]; exact hspec
      simp only [encodeQuoted, List.flatMap_cons, hcond, if_true,
        List.cons_append, List.append_assoc, List.nil_append]
      rw [rsuGo_step_escape q c _ _ hspec]
      have := ih (acc ++ [c])
      simp only [encodeQuoted, List.append_assoc] at this ⊢
      rw [this]
    · push_neg at hspec
      have hcond : (c = q || c = backslash) = false := by
        simp only [Bool.or_eq_false_iff, decide_eq_false_iff_not]
        exact ⟨hspec.1, hspec.2⟩
      simp only [encodeQuoted, List.flatMap_cons, hcond, Bool.false_eq_true,
        if_false, List.cons_append, List.nil_append]
      rw [rsuGo_step_normal q c _ _ hspec.2 hspec.1]
      have := ih (acc ++ [c])
      simp only [encodeQuoted] at this
      rw [this]


-- Claim C1 --------------------------------------------------------------------

/-- Concrete valid tag tree exercising scalars, a string, a list and the
compound wrapper. -/
def c1w : Tag :=
  .TagCompound
    [(List.replicate 2 110, .TagString [97, 112]),
     ([120], .TagList [.TagByte 1, .TagByte (-2)]),
     ([121], .TagInt (-70000))]

/-- C1: for every valid tag tree `t`, decoding the bytes produced by
encoding `t` returns `t` itself with no bytes left over, `deep_copy`
(decode of encode) returns `t`, and the copy re-encodes byte-identically
(`equals_exact`).  The decode result being structurally identical to `t`
subsumes the spec's logical equality. -/
theorem claim_C1_roundtrip (t : Tag) (h : t.valid = true) :
    Tag.fromBytesAs t.kindId t.toBytes = some (t, []) ∧
    Tag.deep_copy t = some t ∧
    ∀ t', Tag.deep_copy t = some t' → Tag.equals_exact t t' = true := by
  have hrt := fromBytesAs_toBytes t h
  refine ⟨hrt, by simp [Tag.deep_copy, hrt], ?_⟩
  intro t' h'
  simp only [Tag.deep_copy, hrt, Option.map_some'] at h'
  obtain rfl := Option.some.inj h'
  simp [Tag.equals_exact]

/-- C1 witness: the round-trip theorem instantiated at `c1w`. -/
theorem claim_C1_roundtrip_witness :
    c1w.valid = true ∧ Tag.deep_copy c1w = some c1w :=
  ⟨by decide, (claim_C1_roundtrip c1w (by decide)).2.1⟩

-- Claim C2 --------------------------------------------------------------------

/-- Bytes of an ASCII string (the parser-side encoding of a key or string
payload). -/
def strBytes (s : String) : List Nat := s.toList.map Char.toNat

def appleC : Tag := .TagCompound [(strBytes "id", .TagString (strBytes "apple"))]

def pearC : Tag := .TagCompound [(strBytes "id", .TagString (strBytes "pear"))]

def itemsTag : Tag :=
  .TagCompound [(strBytes "Items", .TagList [appleC, pearC])]

/-- C2: on the compound from the spec's worked example, `at_path
"Items[0].id"` returns the string tag `"apple"` and `iter_multipath
"Items[]"` yields both entries in order; but the filtered path
`Items[{id:"pear"}]`, which the spec says yields exactly the second
entry, instead raises `SyntaxError`: the `TagList` count/iterate loop
parses the `{...}` filter but never skips the closing `]`, so the
node-suffix check sees `]` and fails. -/
theorem claim_C2_path_examples (fc : FloatConv) :
    Tag.at_path fc itemsTag ("Items[0].id".toList) =
      .ok (.tag (.TagString (strBytes "apple"))) ∧
    Tag.iter_multipath fc itemsTag ("Items[]".toList) =
      .ok [.tag appleC, .tag pearC] ∧
    Tag.iter_multipath fc itemsTag ("Items[\x7bid:\x22pear\x22\x7d]".toList) =
      .error .syntaxError ∧
    Tag.count_multipath fc itemsTag ("Items[\x7bid:\x22pear\x22\x7d]".toList) =
      .error .syntaxError :=
  ⟨rfl, rfl, rfl, rfl⟩

-- Claim C5 --------------------------------------------------------------------

/-- C5 counterexample: `__eq__` compares `to_obj()` values, which erase the
variant, so an 8-bit and a 32-bit integer tag holding 1 compare equal even
though their variants differ. -/
theorem claim_C5_counterexample :
    Tag.tagEq (Tag.TagByte 1) (Tag.TagInt 1) = true ∧
    (Tag.TagByte 1).kindId ≠ (Tag.TagInt 1).kindId :=
  ⟨rfl, by decide⟩

/-- C5 (amended): `==` on integer scalar tags compares the numeric payload
only, regardless of which of the four integer variants either side is;
`equals_exact` does distinguish the variants (a byte tag and an int tag
encode to 1 and 4 payload bytes respectively, so they are never
bit-exact equal). -/
theorem claim_C5_eq_erases_variant (v w : Int) (a b : Tag)
    (ha : a = .TagByte v ∨ a = .TagShort v ∨ a = .TagInt v ∨ a = .TagLong v)
    (hb : b = .TagByte w ∨ b = .TagShort w ∨ b = .TagInt w ∨ b = .TagLong w) :
    Tag.tagEq a b = (v == w) ∧
    Tag.equals_exact (Tag.TagByte v) (Tag.TagInt w) = false := by
  constructor
  · rcases ha with h | h | h | h <;> rcases hb with h2 | h2 | h2 | h2 <;>
      subst h <;> subst h2 <;> rfl
  · apply Bool.eq_false_iff.mpr
    intro hbe
    simp only [Tag.equals_exact, beq_iff_eq] at hbe
    have h1 : (Tag.TagByte v).toBytes.length = 1 := by
      simp [Tag.toBytes, packBE_length]
    have h4 : (Tag.TagInt w).toBytes.length = 4 := by
      simp [Tag.toBytes, packBE_length]
    rw [hbe, h4] at h1
    exact absurd h1 (by decide)

/-- C5 witness: the amended theorem at short 7 vs long 7. -/
theorem claim_C5_eq_erases_variant_witness :
    Tag.tagEq (Tag.TagShort 7) (Tag.TagLong 7) = ((7 : Int) == 7) ∧
    Tag.equals_exact (Tag.TagByte 7) (Tag.TagInt 7) = false :=
  claim_C5_eq_erases_variant 7 7 (Tag.TagShort 7) (Tag.TagLong 7)
    (Or.inr (Or.inl rfl)) (Or.inr (Or.inr (Or.inr rfl)))

-- Claim C8 --------------------------------------------------------------------

/-- C8 counterexample: on empty remaining input `read_quoted_string`
returns the empty string successfully instead of requiring a quote. -/
theorem claim_C8_counterexample :
    readQuotedString (mkReader []) = .ok ([], mkReader []) := rfl

/-- C8 (amended): when input remains, `read_quoted_string` requires the
next character to be a quote — though a missing quote raises `NameError`,
not the intended `SyntaxError`, because the error message references an
undefined variable `c` — consumes it, and reads to the matching unescaped
terminator, unescaping exactly backslash-terminator and
backslash-backslash pairs; any other escaped character is a `SyntaxError`,
as is end of input before the terminator.  (Empty input returns the empty
string; see the counterexample.) -/
theorem claim_C8_quoted_scanning (q : Char) (hq : isQuotedStringStart q = true)
    (body rest : List Char) :
    readQuotedString (mkReader (q :: (encodeQuoted q body ++ q :: rest))) =
      .ok (body, ⟨q :: (encodeQuoted q body ++ q :: rest),
        (encodeQuoted q body).length + 2⟩) ∧
    (∀ c s, isQuotedStringStart c = false →
      readQuotedString (mkReader (c :: s)) = .error .nameError) ∧
    readQuotedString (mkReader (q :: encodeQuoted q body)) =
      .error .syntaxError ∧
    (∀ c s acc, c ≠ q → c ≠ backslash →
      rsuGo q (backslash :: c :: s) false acc = .error .syntaxError) := by
  have hcan : ∀ (c : Char) (s : List Char),
      canRead (mkReader (c :: s)) = true := by
    intro c s
    simp [canRead, canReadN, mkReader]
  have hpeek : ∀ (c : Char) (s : List Char),
      peek (mkReader (c :: s)) = c := by
    intro c s
    simp [peek, peekAt, mkReader]
  refine ⟨?_, ?_, ?_, ?_⟩
  · simp only [readQuotedString, hcan, hpeek, hq, Bool.not_true,
      Bool.false_eq_true, if_false]
    rw [readStringUntil]
    have hrem : remaining (skip (mkReader
        (q :: (encodeQuoted q body ++ q :: rest)))) =
        encodeQuoted q body ++ q :: rest := by
      simp [remaining, skip, mkReader]
    rw [hrem, rsuGo_encode q hq body [] rest]
    simp only [List.nil_append, setCursor, skip, mkReader, Except.ok.injEq,
      Prod.mk.injEq, StringReader.mk.injEq, List.length_cons,
      List.length_append, true_and, and_true]
    omega
  · intro c s hc
    simp only [readQuotedString, hcan, hpeek, hc, Bool.not_true, Bool.not_false,
      Bool.false_eq_true, if_false, if_true]
  · simp only [readQuotedString, hcan, hpeek, hq, Bool.not_true,
      Bool.false_eq_true, if_false]
    rw [readStringUntil]
    have hrem : remaining (skip (mkReader (q :: encodeQuoted q body))) =
        encodeQuoted q body := by
      simp [remaining, skip, mkReader]
    rw [hrem, rsuGo_encode_eof q hq body []]
  · intro c s acc h1 h2
    exact rsuGo_step_bad_escape q c s acc h1 h2

/-- C8 witness: double-quoted body `a\\` followed by trailing text. -/
theorem claim_C8_quoted_scanning_witness :
    isQuotedStringStart dquote = true ∧
    readQuotedString (mkReader (dquote ::
        (encodeQuoted dquote "a\\".toList ++ dquote :: "z".toList))) =
      .ok ("a\\".toList,
        ⟨dquote :: (encodeQuoted dquote "a\\".toList ++
          dquote :: "z".toList),
        (encodeQuoted dquote "a\\".toList).length + 2⟩) :=
  ⟨by decide,
    (claim_C8_quoted_scanning dquote (by decide)
      "a\\".toList "z".toList).1⟩

-- Claim C9 --------------------------------------------------------------------

/-- C9: `TagString.to_mojangson` never produces output: `escape_value` is a
`@staticmethod` whose body reads the unbound name `self`, so every call
raises `NameError` (and even before that point its newline replacement
inserts a stray double quote, `"\n"` becoming backslash-n-quote). -/
theorem claim_C9_escape_value_name_error (value : List Char) :
    tagStringToMojangson value = .error .nameError := rfl



-- Claim C3 --------------------------------------------------------------------

/-- Prior state for the C3 counterexample: an 8 KiB region file whose only
live chunk occupies sector 4 (slot x=1, z=0), leaving a two-sector gap at
sectors 2..3. -/
def c3file : List Nat :=
  [0, 0, 0, 0, 0, 0, 4, 1] ++ List.replicate 8184 0

set_option maxRecDepth 100000 in
/-- C3 counterexample: saving a one-sector chunk for slot (0,0) places it
in the mid-file gap at sector 2, but the file is truncated at sector 6 —
the sentinel offset `othersLastEnd + L = 5 + 1` — not at the end of the
last occupied sector (5), so the saved file keeps a trailing unused
sector. -/
theorem claim_C3_counterexample :
    collectExtents c3file 0 0 = [(4, 1)] ∧
    othersLastEnd c3file 0 0 = 5 ∧
    computeLayout c3file 0 0 1 = some ⟨2, 6⟩ ∧
    (saveChunk c3file 0 0 0 [7]).map List.length = some (6 * 4096) := by
  refine ⟨rfl, rfl, rfl, ?_⟩
  have hs : saveChunk c3file 0 0 0 [7] =
      some (truncateTo (writeAt (writeAt (writeAt c3file 0 (packBE 4 513))
        4096 (packBE 4 0)) 8192 (packBE 4 1 ++ [2] ++ [7])) (4096 * 6)) := by
    rfl
  rw [hs, Option.map_some', truncateTo_length]

/-- C3 (amended): `save_chunk` always succeeds and places the new chunk at
the end of some existing extent (first fit), but it truncates the file at
`othersLastEnd + L` sectors — the sentinel extent's offset — rather than
at the end of the last occupied sector, so a mid-gap placement leaves `L`
trailing unused sectors and the file size can exceed the minimum needed
for the header plus all live chunks. -/
theorem claim_C3_save_chunk (f : List Nat) (xPos zPos : Int) (now : Nat)
    (compressed : List Nat) :
    ∃ lay, computeLayout f (xPos % 32).toNat (zPos % 32).toNat
        (sectorCount (compressed.length + 5)) = some lay ∧
      lay.truncOffset = othersLastEnd f (xPos % 32).toNat (zPos % 32).toNat +
        sectorCount (compressed.length + 5) ∧
      (∃ a ∈ (0, 2) :: collectExtents f (xPos % 32).toNat (zPos % 32).toNat,
        lay.chunkOffset = a.1 + a.2) ∧
      (saveChunk f xPos zPos now compressed).map List.length =
        some (4096 * lay.truncOffset) := by
  obtain ⟨off, hlay, ha⟩ := computeLayout_some f (xPos % 32).toNat
    (zPos % 32).toNat (sectorCount (compressed.length + 5))
  have hchunk : (packBE 4 compressed.length ++ [2] ++ compressed).length =
      compressed.length + 5 := by
    simp [packBE_length]
    omega
  refine ⟨_, hlay, rfl, ha, ?_⟩
  simp only [saveChunk, hchunk, hlay, Option.map_some', truncateTo_length]

-- Claim C7 --------------------------------------------------------------------

/-- C7 counterexample region file: slot (0,0) points at sector 1 with
length 1; the chunk's declared compressed length is 6 but only 3 bytes
follow it, an overrun of three — more than the off-by-one the spec
tolerates — yet the loader clamps and succeeds. -/
def c7file : List Nat :=
  [0, 0, 1, 1] ++ List.replicate 4092 0 ++ [0, 0, 0, 6, 2, 9, 9, 9]

/-- Well-formed variant for the C7 witness: declared length 2, three bytes
available. -/
def c7wfile : List Nat :=
  [0, 0, 1, 1] ++ List.replicate 4092 0 ++ [0, 0, 0, 2, 2, 9, 9, 9]

set_option maxRecDepth 100000 in
/-- C7 counterexample: a declared length overrunning the available bytes
by three is silently clamped to the three available bytes; the spec's
retry-with-length−1 would not accept this read. -/
theorem claim_C7_counterexample :
    loadChunkRaw c7file 0 0 = .ok (some [9, 9, 9]) := rfl

/-- C7 (amended): a zero offset yields `None`; otherwise the declared
compressed length is clamped to `min(declared, available)` — a declared
length within the available bytes reads exactly the declared count, and
any overrun (not only by one) silently yields all available bytes; there
is no retry with length−1 and no error for arbitrarily large overruns. -/
theorem claim_C7_load_chunk (f : List Nat) (cx cz : Nat)
    (b0 b1 b2 b3 b4 : Nat) (rest : List Nat)
    (hoff : readU32 f (4 * (32 * cz + cx)) / 256 ≠ 0)
    (hslice : (f.drop (4096 * (readU32 f (4 * (32 * cz + cx)) / 256))).take
        (4096 * (readU32 f (4 * (32 * cz + cx)) % 256)) =
      b0 :: b1 :: b2 :: b3 :: b4 :: rest) :
    (∀ g cx' cz', readU32 g (4 * (32 * cz' + cx')) / 256 = 0 →
      loadChunkRaw g cx' cz' = .ok none) ∧
    (((b0 * 256 + b1) * 256 + b2) * 256 + b3 ≤ rest.length →
      loadChunkRaw f cx cz =
        .ok (some (rest.take (((b0 * 256 + b1) * 256 + b2) * 256 + b3)))) ∧
    (rest.length < ((b0 * 256 + b1) * 256 + b2) * 256 + b3 →
      loadChunkRaw f cx cz = .ok (some rest)) := by
  refine ⟨?_, ?_, ?_⟩
  · intro g cx' cz' h0
    simp only [loadChunkRaw, h0, if_pos]
  · intro hle
    simp only [loadChunkRaw, if_neg hoff, hslice]
    rw [Nat.min_eq_left hle]
  · intro hlt
    simp only [loadChunkRaw, if_neg hoff, hslice]
    rw [Nat.min_eq_right (Nat.le_of_lt hlt), List.take_length]

set_option maxRecDepth 100000 in
/-- C7 witness: the clamped loader on the well-formed file reads exactly
the declared two bytes. -/
theorem claim_C7_load_chunk_witness :
    readU32 c7wfile 0 / 256 ≠ 0 ∧
    loadChunkRaw c7wfile 0 0 = .ok (some [9, 9]) :=
  ⟨by decide,
    (claim_C7_load_chunk c7wfile 0 0 0 0 0 2 2 [9, 9, 9] (by decide)
      (by rfl)).2.1 (by decide)⟩

-- Claim C10 -------------------------------------------------------------------

/-- C10: restoring from a slot whose source location entry is zero returns
`False` with the destination file untouched; `False` is returned in no
other way, and a `True` result arises exactly from the full write sequence
— location entry, timestamp, copied blob — followed by the truncation, as
witnessed by the readbacks of the written location entry and timestamp. -/
theorem claim_C10_restore_atomic (self old : List Nat) (cx cz now : Nat)
    (hnow : now < 2 ^ 32) (hslot : 32 * cz + cx < 1024) :
    (readU32 old (4 * (32 * cz + cx)) = 0 →
      restoreChunk self old cx cz now = .ok (false, self)) ∧
    (∀ f', restoreChunk self old cx cz now = .ok (false, f') → f' = self) ∧
    (∀ f', restoreChunk self old cx cz now = .ok (true, f') →
      readU32 old (4 * (32 * cz + cx)) ≠ 0 ∧
      ∃ lay chunk,
        computeLayout self cx cz (readU32 old (4 * (32 * cz + cx)) % 256) =
          some lay ∧
        f' = truncateTo (writeAt (writeAt (writeAt self (4 * (32 * cz + cx))
              (packBE 4 (lay.chunkOffset * 256 +
                readU32 old (4 * (32 * cz + cx)) % 256 % 256)))
            (4096 + 4 * (32 * cz + cx)) (packBE 4 now))
            (4096 * lay.chunkOffset) chunk)
          (4096 * lay.truncOffset) ∧
        (2 ≤ lay.chunkOffset → 2 ≤ lay.truncOffset →
          lay.chunkOffset < 2 ^ 24 →
          readU32 f' (4 * (32 * cz + cx)) =
            lay.chunkOffset * 256 + readU32 old (4 * (32 * cz + cx)) % 256 % 256 ∧
          readU32 f' (4096 + 4 * (32 * cz + cx)) = now)) := by
  refine ⟨?_, ?_, ?_⟩
  · intro h0
    simp only [restoreChunk, h0, if_pos]
  · intro f' h
    simp only [restoreChunk] at h
    by_cases h0 : readU32 old (4 * (32 * cz + cx)) = 0
    · rw [if_pos h0] at h
      simp only [Except.ok.injEq, Prod.mk.injEq] at h
      exact h.2.symm
    · rw [if_neg h0] at h
      split at h
      · split at h
        · exact absurd h (by simp)
        · split at h
          · exact absurd h (by simp)
          · simp at h
      · exact absurd h (by simp)
  · intro f' h
    simp only [restoreChunk] at h
    by_cases h0 : readU32 old (4 * (32 * cz + cx)) = 0
    · rw [if_pos h0] at h
      simp at h
    · rw [if_neg h0] at h
      refine ⟨h0, ?_⟩
      split at h
      · split at h
        · exact absurd h (by simp)
        · split at h
          · exact absurd h (by simp)
          · rename_i lay hlay
            simp only [Except.ok.injEq, Prod.mk.injEq, true_and] at h
            refine ⟨lay, _, hlay, h.symm, ?_⟩
            intro hco2 hT2 hco24
            subst h
            constructor
            · rw [readU32_truncateTo _ _ _ (by omega),
                readU32_writeAt_before _ _ _ _ (by omega),
                readU32_writeAt_before _ _ _ _ (by omega),
                readU32_writeAt_at _ _ _ (by omega)]
            · rw [readU32_truncateTo _ _ _ (by omega),
                readU32_writeAt_before _ _ _ _ (by omega),
                readU32_writeAt_at _ _ _ hnow]
      · exact absurd h (by simp)

/-- Source and destination files for the C10 witness. -/
def c10old : List Nat :=
  [0, 0, 1, 1] ++ List.replicate 4092 0 ++ [0, 0, 0, 2, 2, 9, 9]

def c10self : List Nat := List.replicate 8192 0

def c10chunk : List Nat := packBE 4 2 ++ [2] ++ [9, 9]

def c10restored : List Nat :=
  truncateTo (writeAt (writeAt (writeAt c10self 0 (packBE 4 513)) 4096
    (packBE 4 7)) 8192 c10chunk) (4096 * 3)

set_option maxRecDepth 100000 in
/-- C10 witness: restoring slot (0,0) of the concrete source file writes
entry 513 (offset 2, length 1) and timestamp 7, both read back from the
restored file. -/
theorem claim_C10_restore_atomic_witness :
    readU32 c10old 0 ≠ 0 ∧
    readU32 c10restored 0 = 513 ∧ readU32 c10restored 4096 = 7 := by
  have h := (claim_C10_restore_atomic c10self c10old 0 0 7 (by decide)
    (by decide)).2.2 c10restored (by rfl)
  obtain ⟨h0, lay, chunk, hlay, hf, hrb⟩ := h
  have hlay2 : (⟨2, 3⟩ : Layout) = lay := by
    have : some (⟨2, 3⟩ : Layout) = some lay := by rw [← hlay]; rfl
    exact Option.some.inj this
  obtain rfl := hlay2.symm
  exact ⟨h0, (hrb (by decide) (by decide) (by decide)).1,
    (hrb (by decide) (by decide) (by decide)).2⟩



-- Claim C4 --------------------------------------------------------------------

theorem lookupTag_cons_ne (k' : List Nat) (v' : Tag)
    (rest : List (List Nat × Tag)) (k : List Nat) (h : k' ≠ k) :
    lookupTag ((k', v') :: rest) k = lookupTag rest k := by
  simp only [lookupTag, List.find?]
  rw [show (decide (k' = k)) = false by simp [h]]

theorem lookupTag_odInsert_ne (kvs : List (List Nat × Tag))
    (name k : List Nat) (v : Tag) (h : name ≠ k) :
    lookupTag (odInsert kvs name v) k = lookupTag kvs k := by
  induction kvs with
  | nil =>
    show lookupTag [(name, v)] k = lookupTag [] k
    rw [lookupTag_cons_ne _ _ _ _ h]
  | cons kv rest ih =>
    obtain ⟨k', v'⟩ := kv
    by_cases hk : k' = name
    · subst hk
      show lookupTag (if k' = k' then (k', v) :: rest
        else (k', v') :: odInsert rest k' v) k = _
      rw [if_pos rfl, lookupTag_cons_ne _ _ _ _ h, lookupTag_cons_ne _ _ _ _ h]
    · show lookupTag (if k' = name then (k', v) :: rest
        else (k', v') :: odInsert rest name v) k = _
      rw [if_neg hk]
      by_cases hkk : k' = k
      · subst hkk
        simp [lookupTag, List.find?]
      · rw [lookupTag_cons_ne _ _ _ _ hkk, lookupTag_cons_ne _ _ _ _ hkk]
        exact ih

theorem lookupTag_odErase_ne (kvs : List (List Nat × Tag))
    (name k : List Nat) (h : name ≠ k) :
    lookupTag (odErase kvs name) k = lookupTag kvs k := by
  induction kvs with
  | nil => rfl
  | cons kv rest ih =>
    obtain ⟨k', v'⟩ := kv
    by_cases hk : k' = name
    · subst hk
      show lookupTag (if k' = k' then rest else (k', v') :: odErase rest k') k
        = _
      rw [if_pos rfl, lookupTag_cons_ne _ _ _ _ h]
    · show lookupTag (if k' = name then rest else (k', v') :: odErase rest
        name) k = _
      rw [if_neg hk]
      by_cases hkk : k' = k
      · subst hkk
        simp [lookupTag, List.find?]
      · rw [lookupTag_cons_ne _ _ _ _ hkk, lookupTag_cons_ne _ _ _ _ hkk]
        exact ih

theorem one_le_updWeight (t : Tag) : 1 ≤ t.updWeight := by
  cases t <;> simp [Tag.updWeight]

theorem updateTagsF_nil (fuel : Nat) (self : List (List Nat × Tag)) :
    updateTagsF fuel self [] = self := by
  cases fuel <;> simp [updateTagsF]

theorem asCompound_eq_some (t : Tag) (kvs : List (List Nat × Tag))
    (h : asCompound t = some kvs) : t = .TagCompound kvs := by
  cases t <;> simp [asCompound] at h
  rw [h]

theorem mergeOrAssign_none_left (F : List (List Nat × Tag) →
    List (List Nat × Tag) → List (List Nat × Tag))
    (self : List (List Nat × Tag)) (name : List Nat) (newTag : Tag)
    (y : Option (List (List Nat × Tag))) :
    mergeOrAssign F self name newTag none y = odInsert self name newTag := by
  cases y <;> rfl

theorem mergeOrAssign_none_right (F : List (List Nat × Tag) →
    List (List Nat × Tag) → List (List Nat × Tag))
    (self : List (List Nat × Tag)) (name : List Nat) (newTag : Tag)
    (x : Option (List (List Nat × Tag))) :
    mergeOrAssign F self name newTag x none = odInsert self name newTag := by
  cases x <;> rfl

/-- The `update` loop body depends on the recursive merge only through its
value on the two nested compounds. -/
theorem updateStep_congr
    (F G : List (List Nat × Tag) → List (List Nat × Tag) →
      List (List Nat × Tag))
    (self : List (List Nat × Tag)) (name : List Nat) (newTag : Tag)
    (hab : ∀ okvs nkvs, newTag = Tag.TagCompound nkvs →
      F okvs nkvs = G okvs nkvs) :
    updateStep F self name newTag = updateStep G self name newTag := by
  unfold updateStep
  by_cases hc : (oldTruthy (lookupTag self name) && !newTag.truthy) = true
  · rw [if_pos hc, if_pos hc]
  · rw [if_neg hc, if_neg hc]
    cases hx : (lookupTag self name).bind asCompound with
    | none => rw [mergeOrAssign_none_left, mergeOrAssign_none_left]
    | some okvs =>
      cases hy : asCompound newTag with
      | none => rw [mergeOrAssign_none_right, mergeOrAssign_none_right]
      | some nkvs =>
        show odInsert self name (Tag.TagCompound (F okvs nkvs)) =
          odInsert self name (Tag.TagCompound (G okvs nkvs))
        rw [hab okvs nkvs (asCompound_eq_some _ _ hy)]

/-- The fuel is irrelevant above the nesting weight. -/
theorem updateTagsF_irrel (f1 : Nat) : ∀ (f2 : Nat)
    (self other : List (List Nat × Tag)),
    Tag.updWeightEntries other < f1 → Tag.updWeightEntries other < f2 →
    updateTagsF f1 self other = updateTagsF f2 self other := by
  induction f1 with
  | zero => intro f2 self other h1 _; omega
  | succ a ih =>
    intro f2 self other h1 h2
    match f2 with
    | 0 => omega
    | b + 1 =>
      match other with
      | [] => rw [updateTagsF_nil, updateTagsF_nil]
      | (name, newTag) :: rest =>
        have hw := one_le_updWeight newTag
        have hwe : Tag.updWeightEntries ((name, newTag) :: rest) =
            1 + newTag.updWeight + Tag.updWeightEntries rest := rfl
        simp only [updateTagsF]
        rw [updateStep_congr (updateTagsF a) (updateTagsF b) self name newTag
          (fun okvs nkvs hnew => ih b okvs nkvs
            (by
              subst hnew
              have e1 : (Tag.TagCompound nkvs).updWeight =
                  1 + Tag.updWeightEntries nkvs := rfl
              omega)
            (by
              subst hnew
              have e1 : (Tag.TagCompound nkvs).updWeight =
                  1 + Tag.updWeightEntries nkvs := rfl
              omega))]
        exact ih b _ rest (by omega) (by omega)

/-- One `update` iteration on a single-entry incoming compound. -/
theorem updateTags_single (self : List (List Nat × Tag)) (k : List Nat)
    (v : Tag) :
    updateTags self [(k, v)] = updateStep updateTags self k v := by
  unfold updateTags
  simp only [updateTagsF]
  rw [updateTagsF_nil]
  exact updateStep_congr _ updateTags self k v
    (fun okvs nkvs hnew => updateTagsF_irrel _ _ okvs nkvs
      (by
        subst hnew
        have e1 : (Tag.TagCompound nkvs).updWeight =
            1 + Tag.updWeightEntries nkvs := rfl
        have e2 : Tag.updWeightEntries [(k, Tag.TagCompound nkvs)] =
            1 + (Tag.TagCompound nkvs).updWeight + 0 := rfl
        omega)
      (by omega))

/-- Fresh key: the incoming value is inserted, whatever its truthiness. -/
theorem updateStep_none
    (F : List (List Nat × Tag) → List (List Nat × Tag) →
      List (List Nat × Tag))
    (self : List (List Nat × Tag)) (name : List Nat) (newTag : Tag)
    (h : lookupTag self name = none) :
    updateStep F self name newTag = odInsert self name newTag := by
  unfold updateStep
  rw [h]
  show (if (false && !newTag.truthy) = true then _ else _) = _
  rw [Bool.false_and]
  simp only [Bool.false_eq_true, if_false]
  exact mergeOrAssign_none_left _ _ _ _ _

/-- Deletion: present truthy old value, falsy incoming value. -/
theorem updateStep_delete
    (F : List (List Nat × Tag) → List (List Nat × Tag) →
      List (List Nat × Tag))
    (self : List (List Nat × Tag)) (name : List Nat) (newTag o : Tag)
    (h : lookupTag self name = some o) (ho : o.truthy = true)
    (hv : newTag.truthy = false) :
    updateStep F self name newTag = odErase self name := by
  unfold updateStep
  rw [h]
  show (if (o.truthy && !newTag.truthy) = true then _ else _) = _
  rw [ho, hv]
  rfl

/-- Merge: both sides compounds. -/
theorem updateStep_merge
    (F : List (List Nat × Tag) → List (List Nat × Tag) →
      List (List Nat × Tag))
    (self : List (List Nat × Tag)) (name : List Nat)
    (okvs nkvs : List (List Nat × Tag))
    (h : lookupTag self name = some (.TagCompound okvs)) :
    updateStep F self name (.TagCompound nkvs) =
      odInsert self name (.TagCompound (F okvs nkvs)) := by
  unfold updateStep
  rw [h]
  rfl

/-- Replacement: every other present-key case assigns the incoming
value. -/
theorem updateStep_replace
    (F : List (List Nat × Tag) → List (List Nat × Tag) →
      List (List Nat × Tag))
    (self : List (List Nat × Tag)) (name : List Nat) (newTag o : Tag)
    (h : lookupTag self name = some o)
    (hkeep : o.truthy = false ∨ newTag.truthy = true)
    (hnc : ∀ okvs nkvs, o = Tag.TagCompound okvs →
      newTag = Tag.TagCompound nkvs → False) :
    updateStep F self name newTag = odInsert self name newTag := by
  unfold updateStep
  rw [h]
  show (if (o.truthy && !newTag.truthy) = true then _ else _) = _
  have hcond : (o.truthy && !newTag.truthy) = false := by
    rcases hkeep with h' | h' <;> simp [h']
  rw [hcond]
  simp only [Bool.false_eq_true, if_false]
  cases hy : asCompound newTag with
  | none => exact mergeOrAssign_none_right _ _ _ _ _
  | some nkvs =>
    cases hx : asCompound o with
    | none =>
      show mergeOrAssign F self name newTag ((some o).bind asCompound)
        (some nkvs) = _
      rw [Option.some_bind, hx]
      exact mergeOrAssign_none_left _ _ _ _ _
    | some okvs =>
      exact (hnc okvs nkvs (asCompound_eq_some _ _ hx)
        (asCompound_eq_some _ _ hy)).elim

/-- Keys not named by the incoming compound are left untouched by
`update`. -/
theorem updateTagsF_lookup_untouched (fuel : Nat) : ∀ (other self :
    List (List Nat × Tag)) (k : List Nat),
    (∀ kv ∈ other, kv.1 ≠ k) →
    lookupTag (updateTagsF fuel self other) k = lookupTag self k := by
  induction fuel with
  | zero => intro other self k _; rfl
  | succ a ih =>
    intro other self k h
    match other with
    | [] => rw [updateTagsF_nil]
    | (name, newTag) :: rest =>
      have hne : name ≠ k := h (name, newTag) (by simp)
      have htail : ∀ kv ∈ rest, kv.1 ≠ k := fun kv hkv =>
        h kv (by simp [hkv])
      simp only [updateTagsF]
      rw [ih rest _ k htail]
      unfold updateStep
      split
      · exact lookupTag_odErase_ne _ _ _ hne
      · cases hx : (lookupTag self name).bind asCompound with
        | none =>
          rw [mergeOrAssign_none_left]
          exact lookupTag_odInsert_ne _ _ _ _ hne
        | some okvs =>
          cases hy : asCompound newTag with
          | none =>
            rw [mergeOrAssign_none_right]
            exact lookupTag_odInsert_ne _ _ _ _ hne
          | some nkvs =>
            show lookupTag (odInsert self name
              (Tag.TagCompound (updateTagsF a okvs nkvs))) k = _
            exact lookupTag_odInsert_ne _ _ _ _ hne

theorem updateTags_lookup_untouched (other self : List (List Nat × Tag))
    (k : List Nat) (h : ∀ kv ∈ other, kv.1 ≠ k) :
    lookupTag (updateTags self other) k = lookupTag self k :=
  updateTagsF_lookup_untouched _ other self k h

/-- C4 counterexample: merging `{k: [Tag list of 0 entries]}` into
`{k: byte 1}` deletes the key — the present, non-null incoming empty
list is treated as a deletion because Python truthiness (`not new_tag`)
holds for an empty `TagList`. -/
theorem claim_C4_counterexample :
    updateTags [([107], Tag.TagByte 1)] [([107], Tag.TagList [])] = [] := rfl

/-- C4 (amended): `update` leaves keys absent from the incoming compound
untouched; a fresh key is always inserted (even with a falsy value); a key
whose existing value is truthy and whose incoming value is falsy — which
includes a present empty list or empty array, not only absent/null — is
deleted; two compounds merge recursively; otherwise the incoming value
replaces the existing one. -/
theorem claim_C4_update (self : List (List Nat × Tag)) (k : List Nat)
    (v : Tag) :
    (∀ other, (∀ kv ∈ other, kv.1 ≠ k) →
      lookupTag (updateTags self other) k = lookupTag self k) ∧
    (lookupTag self k = none →
      updateTags self [(k, v)] = odInsert self k v) ∧
    (∀ o, lookupTag self k = some o → o.truthy = true → v.truthy = false →
      updateTags self [(k, v)] = odErase self k) ∧
    (∀ okvs nkvs, lookupTag self k = some (.TagCompound okvs) →
      v = .TagCompound nkvs →
      updateTags self [(k, v)] =
        odInsert self k (.TagCompound (updateTags okvs nkvs))) ∧
    (∀ o, lookupTag self k = some o →
      (o.truthy = false ∨ v.truthy = true) →
      (∀ okvs nkvs, o = Tag.TagCompound okvs → v = Tag.TagCompound nkvs →
        False) →
      updateTags self [(k, v)] = odInsert self k v) := by
  refine ⟨fun other h => updateTags_lookup_untouched other self k h,
    ?_, ?_, ?_, ?_⟩
  · intro hnone
    rw [updateTags_single, updateStep_none _ _ _ _ hnone]
  · intro o hsome ho hv
    rw [updateTags_single, updateStep_delete _ _ _ _ _ hsome ho hv]
  · intro okvs nkvs hsome hveq
    subst hveq
    rw [updateTags_single, updateStep_merge _ _ _ _ _ hsome]
  · intro o hsome hkeep hnc
    rw [updateTags_single, updateStep_replace _ _ _ _ _ hsome hkeep hnc]

/-- C4 witness: the deletion clause at a concrete compound — an incoming
empty list deletes the key. -/
theorem claim_C4_update_witness :
    lookupTag [([107], Tag.TagByte 1)] [107] = some (Tag.TagByte 1) ∧
    updateTags [([107], Tag.TagByte 1)] [([107], Tag.TagList [])] =
      odErase [([107], Tag.TagByte 1)] [107] :=
  ⟨rfl,
    (claim_C4_update [([107], Tag.TagByte 1)] [107] (Tag.TagList [])).2.2.1
      (Tag.TagByte 1) rfl rfl rfl⟩


-- Claim C6 --------------------------------------------------------------------

theorem digitChar_facts (d : Nat) (h : d < 10) :
    (Char.ofNat (48 + d)).toNat = 48 + d ∧
    (Char.ofNat (48 + d)).isDigit = true ∧
    isAllowedNumber (Char.ofNat (48 + d)) = true := by
  interval_cases d <;> exact ⟨rfl, rfl, by decide⟩

theorem natChars_mem (n : Nat) : ∀ c ∈ natChars n,
    c.isDigit = true ∧ isAllowedNumber c = true := by
  induction n using Nat.strong_induction_on with
  | _ n ih =>
    rw [natChars]
    split
    · rename_i h
      intro c hc
      simp only [List.mem_singleton] at hc
      subst hc
      exact ⟨(digitChar_facts n h).2.1, (digitChar_facts n h).2.2⟩
    · rename_i h
      intro c hc
      rw [List.mem_append] at hc
      rcases hc with hc | hc
      · exact ih (n / 10) (Nat.div_lt_self (by omega) (by omega)) c hc
      · simp only [List.mem_singleton] at hc
        subst hc
        have h10 : n % 10 < 10 := Nat.mod_lt _ (by omega)
        exact ⟨(digitChar_facts _ h10).2.1, (digitChar_facts _ h10).2.2⟩

theorem natChars_ne_nil (n : Nat) : natChars n ≠ [] := by
  rw [natChars]
  split
  · simp
  · simp

theorem natChars_foldl (n : Nat) : ∀ a : Nat, (natChars n).foldl
    (fun acc c => 10 * acc + (c.toNat - 48)) a =
    a * 10 ^ (natChars n).length + n := by
  induction n using Nat.strong_induction_on with
  | _ n ih =>
    intro a
    rw [natChars]
    split
    · rename_i h
      simp only [List.foldl_cons, List.foldl_nil, List.length_cons,
        List.length_nil]
      rw [(digitChar_facts n h).1]
      have : (10 : Nat) ^ (0 + 1) = 10 := by norm_num
      rw [this]
      omega
    · rename_i h
      rw [List.foldl_append,
        ih (n / 10) (Nat.div_lt_self (by omega) (by omega)) a]
      simp only [List.foldl_cons, List.foldl_nil, List.length_append,
        List.length_cons, List.length_nil]
      rw [(digitChar_facts (n % 10) (Nat.mod_lt _ (by omega))).1]
      have hd := Nat.div_add_mod n 10
      rw [pow_succ, ← mul_assoc]
      generalize a * 10 ^ (natChars (n / 10)).length = M
      omega

theorem pyNatDigits_natChars (n : Nat) : pyNatDigits (natChars n) = some n := by
  unfold pyNatDigits
  have h1 : (natChars n).isEmpty = false := by
    cases hn : natChars n with
    | nil => exact absurd hn (natChars_ne_nil n)
    | cons c cs => rfl
  have h2 : (natChars n).all Char.isDigit = true := by
    rw [List.all_eq_true]
    intro c hc
    exact (natChars_mem n c hc).1
  have hcond : (!(natChars n).isEmpty && (natChars n).all Char.isDigit)
      = true := by simp [h1, h2]
  rw [if_pos hcond, natChars_foldl n 0]
  simp

theorem pyInt_intChars (i : Int) (h32lo : -(2 ^ 31) ≤ i) :
    pyInt (intChars i) = some i := by
  unfold intChars
  split
  · rename_i h
    obtain ⟨c, cs, hcs⟩ : ∃ c cs, natChars (-i).toNat = c :: cs := by
      cases hn : natChars (-i).toNat with
      | nil => exact absurd hn (natChars_ne_nil _)
      | cons c cs => exact ⟨c, cs, rfl⟩
    rw [hcs]
    show (pyNatDigits (c :: cs)).map (fun n => -(n : Int)) = some i
    rw [← hcs, pyNatDigits_natChars]
    simp
    omega
  · rename_i h
    obtain ⟨c, cs, hcs⟩ : ∃ c cs, natChars i.toNat = c :: cs := by
      cases hn : natChars i.toNat with
      | nil => exact absurd hn (natChars_ne_nil _)
      | cons c cs => exact ⟨c, cs, rfl⟩
    rw [hcs]
    have hcdig : c.isDigit = true :=
      (natChars_mem _ c (by rw [hcs]; simp)).1
    have hc1 : ¬ c = '-' := by
      intro e; subst e; exact absurd hcdig (by decide)
    have hc2 : ¬ c = '+' := by
      intro e; subst e; exact absurd hcdig (by decide)
    show (if c = '-' then (pyNatDigits cs).map (fun n => -(n : Int))
      else if c = '+' then (pyNatDigits cs).map (fun n => (n : Int))
      else (pyNatDigits (c :: cs)).map (fun n => (n : Int))) = some i
    rw [if_neg hc1, if_neg hc2, ← hcs, pyNatDigits_natChars]
    simp
    omega

theorem intChars_all_allowed (i : Int) :
    ∀ c ∈ intChars i, isAllowedNumber c = true := by
  unfold intChars
  split
  · intro c hc
    rw [List.mem_cons] at hc
    rcases hc with hc | hc
    · subst hc; decide
    · exact (natChars_mem _ c hc).2
  · intro c hc
    exact (natChars_mem _ c hc).2

theorem intChars_ne_nil (i : Int) : intChars i ≠ [] := by
  unfold intChars
  split
  · simp
  · exact natChars_ne_nil _

theorem takeWhile_all_append (p : Char → Bool) (xs : List Char) (y : Char)
    (r : List Char) (hxs : ∀ c ∈ xs, p c = true) (hy : p y = false) :
    ((xs ++ y :: r).takeWhile p) = xs := by
  induction xs with
  | nil => simp [List.takeWhile_cons, hy]
  | cons c cs ih =>
    simp only [List.cons_append, List.takeWhile_cons, hxs c (by simp),
      if_true, List.cons.injEq, true_and]
    exact ih fun c hc => hxs c (by simp [hc])

/-- `read_int` on a rendered decimal index followed by `]`. -/
theorem readInt_intChars (r : StringReader) (i : Int) (rest : List Char)
    (hrem : remaining r = intChars i ++ ']' :: rest)
    (hlo : -(2 ^ 31) ≤ i) (hhi : i < 2 ^ 31) :
    readInt r = .ok (i, advanceBy r (intChars i).length) := by
  unfold readInt
  rw [hrem, takeWhile_all_append _ _ _ _ (intChars_all_allowed i) (by decide)]
  rw [if_neg (by simp [intChars_ne_nil i])]
  rw [pyInt_intChars i hlo]
  show (if i < -(2 ^ 31) ∨ (2 ^ 31 : Int) ≤ i then
      (Except.error PyErr.valueError : Except PyErr (Int × StringReader))
    else Except.ok (i, advanceBy r (intChars i).length)) = _
  rw [if_neg (by omega)]



theorem canRead_of_remaining_cons (r : StringReader) (x : Char)
    (t : List Char) (h : remaining r = x :: t) : canRead r = true := by
  unfold canRead canReadN
  have hh := congrArg List.length h
  unfold remaining at hh
  rw [List.length_drop] at hh
  simp only [List.length_cons] at hh
  simp only [decide_eq_true_eq]
  omega

theorem canRead_of_remaining_nil (r : StringReader)
    (h : remaining r = []) : canRead r = false := by
  unfold canRead canReadN
  have hh := congrArg List.length h
  unfold remaining at hh
  rw [List.length_drop] at hh
  simp only [List.length_nil] at hh
  simp only [decide_eq_false_iff_not]
  omega

theorem peek_of_remaining (r : StringReader) (x : Char) (t : List Char)
    (h : remaining r = x :: t) : peek r = x := by
  unfold peek peekAt
  unfold remaining at h
  rw [List.getD_eq_getElem?_getD, Nat.add_zero]
  have h0 : r.string[r.cursor]? = (r.string.drop r.cursor)[0]? := by
    rw [List.getElem?_drop, Nat.add_zero]
  rw [h0, h]
  simp

theorem remaining_skip (r : StringReader) :
    remaining (skip r) = (remaining r).drop 1 := by
  unfold remaining skip
  rw [List.drop_drop]

theorem remaining_advanceBy (r : StringReader) (n : Nat) :
    remaining (advanceBy r n) = (remaining r).drop n := by
  unfold remaining advanceBy
  rw [List.drop_drop]

theorem prefixCheck_of_not_dot (r : StringReader) (x : Char) (t : List Char)
    (h : remaining r = x :: t) (hx : (x == '.') = false) :
    prefixCheck r = .ok r := by
  unfold prefixCheck
  rw [peek_of_remaining r x t h, canRead_of_remaining_cons r x t h, hx]
  rfl

theorem prefixCheck_of_nil (r : StringReader) (h : remaining r = []) :
    prefixCheck r = .ok r := by
  unfold prefixCheck
  rw [canRead_of_remaining_nil r h]
  rfl

theorem suffixCheck_of_nil (r : StringReader) (h : remaining r = []) :
    suffixCheck r = .ok r := by
  unfold suffixCheck
  rw [canRead_of_remaining_nil r h]
  rfl

/-- Every query returns its node when the path is exhausted. -/
theorem atPathF_exhausted (fc : FloatConv) (fuel : Nat) (t : Tag)
    (r : StringReader) (hfuel : 1 ≤ fuel) (h : remaining r = []) :
    atPathF fc fuel t r = .ok (.tag t) := by
  obtain ⟨k, rfl⟩ : ∃ k, fuel = k + 1 := ⟨fuel - 1, by omega⟩
  simp only [atPathF]
  rw [prefixCheck_of_nil r h]
  have hcr := canRead_of_remaining_nil r h
  cases t <;>
    simp only [arrayAtPath, suffixCheck_of_nil r h, hcr, Bool.not_false,
      if_true]

theorem hasPathF_exhausted (fc : FloatConv) (fuel : Nat) (t : Tag)
    (r : StringReader) (hfuel : 1 ≤ fuel) (h : remaining r = []) :
    hasPathF fc fuel t r = .ok true := by
  obtain ⟨k, rfl⟩ : ∃ k, fuel = k + 1 := ⟨fuel - 1, by omega⟩
  simp only [hasPathF]
  rw [prefixCheck_of_nil r h]
  have hcr := canRead_of_remaining_nil r h
  cases t <;>
    simp only [arrayHasPath, suffixCheck_of_nil r h, hcr, Bool.not_false,
      if_true]

theorem countF_exhausted (fc : FloatConv) (fuel : Nat) (t : Tag)
    (r : StringReader) (hfuel : 1 ≤ fuel) (h : remaining r = []) :
    countF fc fuel t r = .ok 1 := by
  obtain ⟨k, rfl⟩ : ∃ k, fuel = k + 1 := ⟨fuel - 1, by omega⟩
  simp only [countF]
  rw [prefixCheck_of_nil r h]
  have hcr := canRead_of_remaining_nil r h
  cases t <;>
    simp only [arrayCount, suffixCheck_of_nil r h, hcr, Bool.not_false,
      if_true]

theorem iterF_exhausted (fc : FloatConv) (fuel : Nat) (t : Tag)
    (r : StringReader) (hfuel : 1 ≤ fuel) (h : remaining r = []) :
    iterF fc fuel t r = .ok [([], .tag t)] := by
  obtain ⟨k, rfl⟩ : ∃ k, fuel = k + 1 := ⟨fuel - 1, by omega⟩
  simp only [iterF]
  rw [prefixCheck_of_nil r h]
  have hcr := canRead_of_remaining_nil r h
  cases t <;>
    simp only [arrayIter, suffixCheck_of_nil r h, hcr, Bool.not_false,
      if_true]



/-- `TagList.at_path` on a rendered index `[i]`: `False` out of range, the
indexed element otherwise. -/
theorem at_path_list_index (fc : FloatConv) (xs : List Tag) (i : Int)
    (hlo : -(2 ^ 31) ≤ i) (hhi : i < 2 ^ 31) :
    Tag.at_path fc (.TagList xs) ('[' :: (intChars i ++ [']'])) =
      if i < -(xs.length : Int) ∨ (xs.length : Int) ≤ i then .ok .pyFalse
      else .ok (.tag (pyIndex xs i)) := by
  obtain ⟨c0, t0, hc0⟩ : ∃ c0 t0, intChars i = c0 :: t0 := by
    cases hn : intChars i with
    | nil => exact absurd hn (intChars_ne_nil i)
    | cons c cs => exact ⟨c, cs, rfl⟩
  have hrem0 : remaining (mkReader ('[' :: (intChars i ++ [']']))) =
      '[' :: (intChars i ++ [']']) := by simp [remaining, mkReader]
  have hrem1 : remaining (skip (mkReader ('[' :: (intChars i ++ [']'])))) =
      intChars i ++ ']' :: [] := by
    rw [remaining_skip, hrem0]
    simp
  have hrem1c : remaining (skip (mkReader ('[' :: (intChars i ++ [']'])))) =
      c0 :: (t0 ++ [']']) := by
    rw [hrem1, hc0]
    simp
  have hread := readInt_intChars _ i [] hrem1 hlo hhi
  have hrem2 : remaining (advanceBy
      (skip (mkReader ('[' :: (intChars i ++ [']'])))) (intChars i).length) =
      [']'] := by
    rw [remaining_advanceBy, hrem1]
    exact List.drop_left _ _
  have hrem3 : remaining (skip (advanceBy
      (skip (mkReader ('[' :: (intChars i ++ [']'])))) (intChars i).length)) =
      [] := by
    rw [remaining_skip, hrem2]
    rfl
  have hfuel1 : 1 ≤ Tag.nodeSize (.TagList xs) +
      ('[' :: (intChars i ++ [']'])).length := by
    simp only [List.length_cons]
    omega
  unfold Tag.at_path
  simp only [pathFuel]
  simp only [atPathF]
  rw [prefixCheck_of_not_dot _ _ _ hrem0 (by decide)]
  simp only [canRead_of_remaining_cons _ _ _ hrem0,
    peek_of_remaining _ _ _ hrem0, Bool.not_true, Bool.false_eq_true,
    if_false, bne_self_eq_false,
    canRead_of_remaining_cons _ _ _ hrem1c, hread,
    canRead_of_remaining_cons _ _ _ hrem2, peek_of_remaining _ _ _ hrem2,
    Bool.or_self, suffixCheck_of_nil _ hrem3]
  by_cases hoor : i < -(xs.length : Int) ∨ (xs.length : Int) ≤ i
  · rw [if_pos hoor, if_pos hoor]
  · rw [if_neg hoor, if_neg hoor]
    rw [prefixCheck_of_nil _ hrem3]
    have hcr3 := canRead_of_remaining_nil _ hrem3
    cases pyIndex xs i <;>
      simp only [arrayAtPath, suffixCheck_of_nil _ hrem3, hcr3,
        Bool.not_false, if_true]



theorem intChars_head_ne (i : Int) (c0 : Char) (t0 : List Char)
    (h : intChars i = c0 :: t0) :
    (c0 == ']') = false ∧ (c0 == lbrace) = false := by
  have hmem : c0 ∈ intChars i := by rw [h]; simp
  have hallow := intChars_all_allowed i c0 hmem
  constructor
  · by_cases e : c0 = ']'
    · subst e; exact absurd hallow (by decide)
    · exact beq_eq_false_iff_ne.mpr e
  · by_cases e : c0 = lbrace
    · subst e; exact absurd hallow (by decide)
    · exact beq_eq_false_iff_ne.mpr e

/-- `TagList.has_path` on a rendered index `[i]`. -/
theorem has_path_list_index (fc : FloatConv) (xs : List Tag) (i : Int)
    (hlo : -(2 ^ 31) ≤ i) (hhi : i < 2 ^ 31) :
    Tag.has_path fc (.TagList xs) ('[' :: (intChars i ++ [']'])) =
      if i < -(xs.length : Int) ∨ (xs.length : Int) ≤ i then .ok false
      else .ok true := by
  obtain ⟨c0, t0, hc0⟩ : ∃ c0 t0, intChars i = c0 :: t0 := by
    cases hn : intChars i with
    | nil => exact absurd hn (intChars_ne_nil i)
    | cons c cs => exact ⟨c, cs, rfl⟩
  have hrem0 : remaining (mkReader ('[' :: (intChars i ++ [']']))) =
      '[' :: (intChars i ++ [']']) := by simp [remaining, mkReader]
  have hrem1 : remaining (skip (mkReader ('[' :: (intChars i ++ [']'])))) =
      intChars i ++ ']' :: [] := by
    rw [remaining_skip, hrem0]
    simp
  have hrem1c : remaining (skip (mkReader ('[' :: (intChars i ++ [']'])))) =
      c0 :: (t0 ++ [']']) := by
    rw [hrem1, hc0]
    simp
  have hread := readInt_intChars _ i [] hrem1 hlo hhi
  have hrem2 : remaining (advanceBy
      (skip (mkReader ('[' :: (intChars i ++ [']'])))) (intChars i).length) =
      [']'] := by
    rw [remaining_advanceBy, hrem1]
    exact List.drop_left _ _
  have hrem3 : remaining (skip (advanceBy
      (skip (mkReader ('[' :: (intChars i ++ [']'])))) (intChars i).length)) =
      [] := by
    rw [remaining_skip, hrem2]
    rfl
  have hfuel1 : 1 ≤ Tag.nodeSize (.TagList xs) +
      ('[' :: (intChars i ++ [']'])).length := by
    simp only [List.length_cons]
    omega
  unfold Tag.has_path
  simp only [pathFuel]
  simp only [hasPathF]
  rw [prefixCheck_of_not_dot _ _ _ hrem0 (by decide)]
  simp only [canRead_of_remaining_cons _ _ _ hrem0,
    peek_of_remaining _ _ _ hrem0, Bool.not_true, Bool.false_eq_true,
    if_false, bne_self_eq_false,
    canRead_of_remaining_cons _ _ _ hrem1c,
    peek_of_remaining _ _ _ hrem1c, (intChars_head_ne i c0 t0 hc0).1,
    hread,
    canRead_of_remaining_cons _ _ _ hrem2, peek_of_remaining _ _ _ hrem2,
    Bool.or_self, suffixCheck_of_nil _ hrem3]
  by_cases hoor : i < -(xs.length : Int) ∨ (xs.length : Int) ≤ i
  · rw [if_pos hoor, if_pos hoor]
  · rw [if_neg hoor, if_neg hoor]
    exact hasPathF_exhausted fc _ _ _ hfuel1 hrem3

/-- `TagList.count_multipath` on a rendered index `[i]`. -/
theorem count_list_index (fc : FloatConv) (xs : List Tag) (i : Int)
    (hlo : -(2 ^ 31) ≤ i) (hhi : i < 2 ^ 31) :
    Tag.count_multipath fc (.TagList xs) ('[' :: (intChars i ++ [']'])) =
      if i < -(xs.length : Int) ∨ (xs.length : Int) ≤ i then .ok 0
      else .ok 1 := by
  obtain ⟨c0, t0, hc0⟩ : ∃ c0 t0, intChars i = c0 :: t0 := by
    cases hn : intChars i with
    | nil => exact absurd hn (intChars_ne_nil i)
    | cons c cs => exact ⟨c, cs, rfl⟩
  have hrem0 : remaining (mkReader ('[' :: (intChars i ++ [']']))) =
      '[' :: (intChars i ++ [']']) := by simp [remaining, mkReader]
  have hrem1 : remaining (skip (mkReader ('[' :: (intChars i ++ [']'])))) =
      intChars i ++ ']' :: [] := by
    rw [remaining_skip, hrem0]
    simp
  have hrem1c : remaining (skip (mkReader ('[' :: (intChars i ++ [']'])))) =
      c0 :: (t0 ++ [']']) := by
    rw [hrem1, hc0]
    simp
  have hread := readInt_intChars _ i [] hrem1 hlo hhi
  have hrem2 : remaining (advanceBy
      (skip (mkReader ('[' :: (intChars i ++ [']'])))) (intChars i).length) =
      [']'] := by
    rw [remaining_advanceBy, hrem1]
    exact List.drop_left _ _
  have hrem3 : remaining (skip (advanceBy
      (skip (mkReader ('[' :: (intChars i ++ [']'])))) (intChars i).length)) =
      [] := by
    rw [remaining_skip, hrem2]
    rfl
  have hfuel1 : 1 ≤ Tag.nodeSize (.TagList xs) +
      ('[' :: (intChars i ++ [']'])).length := by
    simp only [List.length_cons]
    omega
  unfold Tag.count_multipath
  simp only [pathFuel]
  simp only [countF]
  rw [prefixCheck_of_not_dot _ _ _ hrem0 (by decide)]
  simp only [canRead_of_remaining_cons _ _ _ hrem0,
    peek_of_remaining _ _ _ hrem0, Bool.not_true, Bool.false_eq_true,
    if_false, bne_self_eq_false,
    canRead_of_remaining_cons _ _ _ hrem1c,
    peek_of_remaining _ _ _ hrem1c, (intChars_head_ne i c0 t0 hc0).1,
    (intChars_head_ne i c0 t0 hc0).2, hread,
    canRead_of_remaining_cons _ _ _ hrem2, peek_of_remaining _ _ _ hrem2,
    Bool.or_self, suffixCheck_of_nil _ hrem3]
  by_cases hoor : i < -(xs.length : Int) ∨ (xs.length : Int) ≤ i
  · rw [if_pos hoor, if_pos hoor]
  · rw [if_neg hoor, if_neg hoor]
    exact countF_exhausted fc _ _ _ hfuel1 hrem3

/-- `TagList.iter_multipath_pair` on a rendered index `[i]`. -/
theorem iter_list_index (fc : FloatConv) (xs : List Tag) (i : Int)
    (hlo : -(2 ^ 31) ≤ i) (hhi : i < 2 ^ 31) :
    Tag.iter_multipath_pair fc (.TagList xs) ('[' :: (intChars i ++ [']'])) =
      if i < -(xs.length : Int) ∨ (xs.length : Int) ≤ i then .ok []
      else .ok [(indexChars (if 0 ≤ i then i.toNat
        else xs.length - (-i).toNat), .tag (pyIndex xs i))] := by
  obtain ⟨c0, t0, hc0⟩ : ∃ c0 t0, intChars i = c0 :: t0 := by
    cases hn : intChars i with
    | nil => exact absurd hn (intChars_ne_nil i)
    | cons c cs => exact ⟨c, cs, rfl⟩
  have hrem0 : remaining (mkReader ('[' :: (intChars i ++ [']']))) =
      '[' :: (intChars i ++ [']']) := by simp [remaining, mkReader]
  have hrem1 : remaining (skip (mkReader ('[' :: (intChars i ++ [']'])))) =
      intChars i ++ ']' :: [] := by
    rw [remaining_skip, hrem0]
    simp
  have hrem1c : remaining (skip (mkReader ('[' :: (intChars i ++ [']'])))) =
      c0 :: (t0 ++ [']']) := by
    rw [hrem1, hc0]
    simp
  have hread := readInt_intChars _ i [] hrem1 hlo hhi
  have hrem2 : remaining (advanceBy
      (skip (mkReader ('[' :: (intChars i ++ [']'])))) (intChars i).length) =
      [']'] := by
    rw [remaining_advanceBy, hrem1]
    exact List.drop_left _ _
  have hrem3 : remaining (skip (advanceBy
      (skip (mkReader ('[' :: (intChars i ++ [']'])))) (intChars i).length)) =
      [] := by
    rw [remaining_skip, hrem2]
    rfl
  have hfuel1 : 1 ≤ Tag.nodeSize (.TagList xs) +
      ('[' :: (intChars i ++ [']'])).length := by
    simp only [List.length_cons]
    omega
  unfold Tag.iter_multipath_pair
  simp only [pathFuel]
  simp only [iterF]
  rw [prefixCheck_of_not_dot _ _ _ hrem0 (by decide)]
  simp only [canRead_of_remaining_cons _ _ _ hrem0,
    peek_of_remaining _ _ _ hrem0, Bool.not_true, Bool.false_eq_true,
    if_false, bne_self_eq_false,
    canRead_of_remaining_cons _ _ _ hrem1c,
    peek_of_remaining _ _ _ hrem1c, (intChars_head_ne i c0 t0 hc0).1,
    (intChars_head_ne i c0 t0 hc0).2, hread,
    canRead_of_remaining_cons _ _ _ hrem2, peek_of_remaining _ _ _ hrem2,
    Bool.or_self, suffixCheck_of_nil _ hrem3]
  by_cases hoor : i < -(xs.length : Int) ∨ (xs.length : Int) ≤ i
  · rw [if_pos hoor, if_pos hoor]
  · rw [if_neg hoor, if_neg hoor]
    rw [prefixCheck_of_nil _ hrem3]
    have hcr3 := canRead_of_remaining_nil _ hrem3
    cases pyIndex xs i <;>
      simp [arrayIter, suffixCheck_of_nil _ hrem3, hcr3, nbt_path_join2]



/-- `_ArrayTag.at_path` on a rendered index `[i]`: `IndexError` out of
range, `AttributeError` (the element is a plain integer) in range. -/
theorem at_path_array_index (fc : FloatConv) (vs : List Nat) (i : Int)
    (t : Tag)
    (ht : t = .TagByteArray vs ∨ t = .TagIntArray vs ∨ t = .TagLongArray vs)
    (hlo : -(2 ^ 31) ≤ i) (hhi : i < 2 ^ 31) :
    Tag.at_path fc t ('[' :: (intChars i ++ [']'])) =
      if i < -(vs.length : Int) ∨ (vs.length : Int) ≤ i then
        .error .indexError
      else .error .attributeError := by
  obtain ⟨c0, t0, hc0⟩ : ∃ c0 t0, intChars i = c0 :: t0 := by
    cases hn : intChars i with
    | nil => exact absurd hn (intChars_ne_nil i)
    | cons c cs => exact ⟨c, cs, rfl⟩
  have hrem0 : remaining (mkReader ('[' :: (intChars i ++ [']']))) =
      '[' :: (intChars i ++ [']']) := by simp [remaining, mkReader]
  have hrem1 : remaining (skip (mkReader ('[' :: (intChars i ++ [']'])))) =
      intChars i ++ ']' :: [] := by
    rw [remaining_skip, hrem0]
    simp
  have hrem1c : remaining (skip (mkReader ('[' :: (intChars i ++ [']'])))) =
      c0 :: (t0 ++ [']']) := by
    rw [hrem1, hc0]
    simp
  have hread := readInt_intChars _ i [] hrem1 hlo hhi
  have hrem2 : remaining (advanceBy
      (skip (mkReader ('[' :: (intChars i ++ [']'])))) (intChars i).length) =
      [']'] := by
    rw [remaining_advanceBy, hrem1]
    exact List.drop_left _ _
  have hrem3 : remaining (skip (advanceBy
      (skip (mkReader ('[' :: (intChars i ++ [']'])))) (intChars i).length)) =
      [] := by
    rw [remaining_skip, hrem2]
    rfl
  rcases ht with rfl | rfl | rfl <;>
  · unfold Tag.at_path
    simp only [pathFuel]
    simp only [atPathF]
    rw [prefixCheck_of_not_dot _ _ _ hrem0 (by decide)]
    simp only [arrayAtPath, canRead_of_remaining_cons _ _ _ hrem0,
      peek_of_remaining _ _ _ hrem0, Bool.not_true, Bool.false_eq_true,
      if_false, bne_self_eq_false, hread,
      canRead_of_remaining_cons _ _ _ hrem2, peek_of_remaining _ _ _ hrem2,
      Bool.or_self, suffixCheck_of_nil _ hrem3,
      canRead_of_remaining_nil _ hrem3]

/-- `_ArrayTag.has_path` on a rendered index `[i]`. -/
theorem has_path_array_index (fc : FloatConv) (vs : List Nat) (i : Int)
    (t : Tag)
    (ht : t = .TagByteArray vs ∨ t = .TagIntArray vs ∨ t = .TagLongArray vs)
    (hlo : -(2 ^ 31) ≤ i) (hhi : i < 2 ^ 31) :
    Tag.has_path fc t ('[' :: (intChars i ++ [']'])) =
      if i < -(vs.length : Int) ∨ (vs.length : Int) ≤ i then .ok false
      else .error .attributeError := by
  obtain ⟨c0, t0, hc0⟩ : ∃ c0 t0, intChars i = c0 :: t0 := by
    cases hn : intChars i with
    | nil => exact absurd hn (intChars_ne_nil i)
    | cons c cs => exact ⟨c, cs, rfl⟩
  have hrem0 : remaining (mkReader ('[' :: (intChars i ++ [']']))) =
      '[' :: (intChars i ++ [']']) := by simp [remaining, mkReader]
  have hrem1 : remaining (skip (mkReader ('[' :: (intChars i ++ [']'])))) =
      intChars i ++ ']' :: [] := by
    rw [remaining_skip, hrem0]
    simp
  have hrem1c : remaining (skip (mkReader ('[' :: (intChars i ++ [']'])))) =
      c0 :: (t0 ++ [']']) := by
    rw [hrem1, hc0]
    simp
  have hread := readInt_intChars _ i [] hrem1 hlo hhi
  have hrem2 : remaining (advanceBy
      (skip (mkReader ('[' :: (intChars i ++ [']'])))) (intChars i).length) =
      [']'] := by
    rw [remaining_advanceBy, hrem1]
    exact List.drop_left _ _
  have hrem3 : remaining (skip (advanceBy
      (skip (mkReader ('[' :: (intChars i ++ [']'])))) (intChars i).length)) =
      [] := by
    rw [remaining_skip, hrem2]
    rfl
  rcases ht with rfl | rfl | rfl <;>
  · unfold Tag.has_path
    simp only [pathFuel]
    simp only [hasPathF]
    rw [prefixCheck_of_not_dot _ _ _ hrem0 (by decide)]
    simp only [arrayHasPath, canRead_of_remaining_cons _ _ _ hrem0,
      peek_of_remaining _ _ _ hrem0, Bool.not_true, Bool.false_eq_true,
      if_false, bne_self_eq_false, hread,
      canRead_of_remaining_cons _ _ _ hrem2, peek_of_remaining _ _ _ hrem2,
      Bool.or_self, suffixCheck_of_nil _ hrem3,
      canRead_of_remaining_nil _ hrem3]

/-- `_ArrayTag.count_multipath` on a rendered index `[i]`. -/
theorem count_array_index (fc : FloatConv) (vs : List Nat) (i : Int)
    (t : Tag)
    (ht : t = .TagByteArray vs ∨ t = .TagIntArray vs ∨ t = .TagLongArray vs)
    (hlo : -(2 ^ 31) ≤ i) (hhi : i < 2 ^ 31) :
    Tag.count_multipath fc t ('[' :: (intChars i ++ [']'])) =
      if i < -(vs.length : Int) ∨ (vs.length : Int) ≤ i then .ok 0
      else .ok 1 := by
  obtain ⟨c0, t0, hc0⟩ : ∃ c0 t0, intChars i = c0 :: t0 := by
    cases hn : intChars i with
    | nil => exact absurd hn (intChars_ne_nil i)
    | cons c cs => exact ⟨c, cs, rfl⟩
  have hrem0 : remaining (mkReader ('[' :: (intChars i ++ [']']))) =
      '[' :: (intChars i ++ [']']) := by simp [remaining, mkReader]
  have hrem1 : remaining (skip (mkReader ('[' :: (intChars i ++ [']'])))) =
      intChars i ++ ']' :: [] := by
    rw [remaining_skip, hrem0]
    simp
  have hrem1c : remaining (skip (mkReader ('[' :: (intChars i ++ [']'])))) =
      c0 :: (t0 ++ [']']) := by
    rw [hrem1, hc0]
    simp
  have hread := readInt_intChars _ i [] hrem1 hlo hhi
  have hrem2 : remaining (advanceBy
      (skip (mkReader ('[' :: (intChars i ++ [']'])))) (intChars i).length) =
      [']'] := by
    rw [remaining_advanceBy, hrem1]
    exact List.drop_left _ _
  have hrem3 : remaining (skip (advanceBy
      (skip (mkReader ('[' :: (intChars i ++ [']'])))) (intChars i).length)) =
      [] := by
    rw [remaining_skip, hrem2]
    rfl
  rcases ht with rfl | rfl | rfl <;>
  · unfold Tag.count_multipath
    simp only [pathFuel]
    simp only [countF]
    rw [prefixCheck_of_not_dot _ _ _ hrem0 (by decide)]
    simp only [arrayCount, canRead_of_remaining_cons _ _ _ hrem0,
      peek_of_remaining _ _ _ hrem0, Bool.not_true, Bool.false_eq_true,
      if_false, bne_self_eq_false,
      canRead_of_remaining_cons _ _ _ hrem1c,
      peek_of_remaining _ _ _ hrem1c, (intChars_head_ne i c0 t0 hc0).1,
      hread,
      canRead_of_remaining_cons _ _ _ hrem2, peek_of_remaining _ _ _ hrem2,
      Bool.or_self, suffixCheck_of_nil _ hrem3,
      canRead_of_remaining_nil _ hrem3]

/-- `_ArrayTag.iter_multipath_pair` on a rendered index `[i]`. -/
theorem iter_array_index (fc : FloatConv) (vs : List Nat) (i : Int)
    (t : Tag)
    (ht : t = .TagByteArray vs ∨ t = .TagIntArray vs ∨ t = .TagLongArray vs)
    (hlo : -(2 ^ 31) ≤ i) (hhi : i < 2 ^ 31) :
    Tag.iter_multipath_pair fc t ('[' :: (intChars i ++ [']'])) =
      if i < -(vs.length : Int) ∨ (vs.length : Int) ≤ i then .ok []
      else .error .attributeError := by
  obtain ⟨c0, t0, hc0⟩ : ∃ c0 t0, intChars i = c0 :: t0 := by
    cases hn : intChars i with
    | nil => exact absurd hn (intChars_ne_nil i)
    | cons c cs => exact ⟨c, cs, rfl⟩
  have hrem0 : remaining (mkReader ('[' :: (intChars i ++ [']']))) =
      '[' :: (intChars i ++ [']']) := by simp [remaining, mkReader]
  have hrem1 : remaining (skip (mkReader ('[' :: (intChars i ++ [']'])))) =
      intChars i ++ ']' :: [] := by
    rw [remaining_skip, hrem0]
    simp
  have hrem1c : remaining (skip (mkReader ('[' :: (intChars i ++ [']'])))) =
      c0 :: (t0 ++ [']']) := by
    rw [hrem1, hc0]
    simp
  have hread := readInt_intChars _ i [] hrem1 hlo hhi
  have hrem2 : remaining (advanceBy
      (skip (mkReader ('[' :: (intChars i ++ [']'])))) (intChars i).length) =
      [']'] := by
    rw [remaining_advanceBy, hrem1]
    exact List.drop_left _ _
  have hrem3 : remaining (skip (advanceBy
      (skip (mkReader ('[' :: (intChars i ++ [']'])))) (intChars i).length)) =
      [] := by
    rw [remaining_skip, hrem2]
    rfl
  rcases ht with rfl | rfl | rfl <;>
  · unfold Tag.iter_multipath_pair
    simp only [pathFuel]
    simp only [iterF]
    rw [prefixCheck_of_not_dot _ _ _ hrem0 (by decide)]
    simp only [arrayIter, canRead_of_remaining_cons _ _ _ hrem0,
      peek_of_remaining _ _ _ hrem0, Bool.not_true, Bool.false_eq_true,
      if_false, bne_self_eq_false,
      canRead_of_remaining_cons _ _ _ hrem1c,
      peek_of_remaining _ _ _ hrem1c, (intChars_head_ne i c0 t0 hc0).1,
      hread,
      canRead_of_remaining_cons _ _ _ hrem2, peek_of_remaining _ _ _ hrem2,
      Bool.or_self, suffixCheck_of_nil _ hrem3,
      canRead_of_remaining_nil _ hrem3]



/-- A trivial decimal-float converter (the `[i]` index paths never invoke
it). -/
def fc0 : FloatConv := ⟨fun _ => 0, fun _ => 0⟩

/-- C6 counterexample: `at_path` on a list with an out-of-range index
returns the bare Python `False` instead of raising an error. -/
theorem claim_C6_counterexample :
    Tag.at_path fc0 (.TagList [.TagByte 1]) ("[5]".toList) =
      .ok .pyFalse := rfl

/-- C6 (amended): for `[i]` with `i` in the 32-bit range but outside
`[-len, len)`, existence/count/iterate treat the path as absent (`False`,
`0`, nothing) on both lists and numeric arrays; `at_path` raises
`IndexError` on a numeric array but on a list returns the bare Python
value `False` rather than raising; negative in-range indices count from
the end. -/
theorem claim_C6_index_out_of_range (fc : FloatConv) (i : Int)
    (hlo : -(2 ^ 31) ≤ i) (hhi : i < 2 ^ 31) :
    (∀ xs : List Tag, i < -(xs.length : Int) ∨ (xs.length : Int) ≤ i →
      Tag.has_path fc (.TagList xs) ('[' :: (intChars i ++ [']'])) =
        .ok false ∧
      Tag.count_multipath fc (.TagList xs) ('[' :: (intChars i ++ [']'])) =
        .ok 0 ∧
      Tag.iter_multipath_pair fc (.TagList xs)
        ('[' :: (intChars i ++ [']'])) = .ok [] ∧
      Tag.at_path fc (.TagList xs) ('[' :: (intChars i ++ [']'])) =
        .ok .pyFalse) ∧
    (∀ (vs : List Nat) (t : Tag),
      (t = .TagByteArray vs ∨ t = .TagIntArray vs ∨ t = .TagLongArray vs) →
      i < -(vs.length : Int) ∨ (vs.length : Int) ≤ i →
      Tag.has_path fc t ('[' :: (intChars i ++ [']'])) = .ok false ∧
      Tag.count_multipath fc t ('[' :: (intChars i ++ [']'])) = .ok 0 ∧
      Tag.iter_multipath_pair fc t ('[' :: (intChars i ++ [']'])) =
        .ok [] ∧
      Tag.at_path fc t ('[' :: (intChars i ++ [']'])) =
        .error .indexError) ∧
    (∀ xs : List Tag, -(xs.length : Int) ≤ i → i < 0 →
      Tag.at_path fc (.TagList xs) ('[' :: (intChars i ++ [']'])) =
        .ok (.tag (xs.getD (xs.length - (-i).toNat) (.TagByte 0)))) := by
  refine ⟨?_, ?_, ?_⟩
  · intro xs hoor
    refine ⟨?_, ?_, ?_, ?_⟩
    · rw [has_path_list_index fc xs i hlo hhi, if_pos hoor]
    · rw [count_list_index fc xs i hlo hhi, if_pos hoor]
    · rw [iter_list_index fc xs i hlo hhi, if_pos hoor]
    · rw [at_path_list_index fc xs i hlo hhi, if_pos hoor]
  · intro vs t ht hoor
    refine ⟨?_, ?_, ?_, ?_⟩
    · rw [has_path_array_index fc vs i t ht hlo hhi, if_pos hoor]
    · rw [count_array_index fc vs i t ht hlo hhi, if_pos hoor]
    · rw [iter_array_index fc vs i t ht hlo hhi, if_pos hoor]
    · rw [at_path_array_index fc vs i t ht hlo hhi, if_pos hoor]
  · intro xs hneg hlt
    rw [at_path_list_index fc xs i hlo hhi, if_neg (by omega)]
    unfold pyIndex
    rw [if_neg (by omega)]

/-- C6 witness: concrete out-of-range and negative-index instances. -/
theorem claim_C6_index_out_of_range_witness :
    Tag.has_path fc0 (.TagList [.TagByte 3]) ('[' :: (intChars 5 ++ [']']))
      = .ok false ∧
    Tag.at_path fc0 (.TagList [.TagByte 3]) ('[' :: (intChars 5 ++ [']']))
      = .ok .pyFalse ∧
    Tag.at_path fc0 (.TagByteArray [7]) ('[' :: (intChars 5 ++ [']'])) =
      .error .indexError ∧
    Tag.at_path fc0 (.TagList [.TagByte 3])
      ('[' :: (intChars (-1) ++ [']'])) = .ok (.tag (.TagByte 3)) := by
  have h1 := (claim_C6_index_out_of_range fc0 5 (by decide) (by decide)).1
    [.TagByte 3] (by right; simp)
  have h2 := (claim_C6_index_out_of_range fc0 5 (by decide) (by decide)).2.1
    [7] (.TagByteArray [7]) (Or.inl rfl) (by right; simp)
  have h3 := (claim_C6_index_out_of_range fc0 (-1) (by decide)
    (by decide)).2.2 [.TagByte 3] (by simp) (by norm_num)
  refine ⟨h1.1, h1.2.2.2, h2.2.2.2, ?_⟩
  rw [h3]
  rfl


end Quarry
